import Mathlib

/-!
Verification development for the adverse-news / sanctions screening scripts
(`adverse_news_app.py`, `adverse_news5_app_Version2.py`, `adverse_news8_app_v2.py`,
`adverse_news9_app_v2_1.py`).

Modelling conventions:
* Python strings are modelled as `List Char` (`Str`); `str.lower`/`str.upper`
  are modelled per character on the ASCII range (characters outside ASCII are
  left unchanged by the case maps; for the v9 normalizer this is not observable
  because every non-`[a-z0-9\s]` character is replaced by a space anyway).
* Python floats are modelled as rationals (`ℚ`); `round(x, 2)` is modelled as
  round-half-to-even at two decimal digits, i.e. at rational precision.
* All network fetches are external collaborators: the fetched article lists,
  sanctions name lists and the sentiment classifier are parameters of the
  embedded functions.  A classifier call is an `Except Unit (Str × ℚ)` value:
  `.ok (label, score)` for a successful call, `.error ()` for a raised error.
* Python's `set(...)` de-duplication has unspecified iteration order; where the
  source de-duplicates before use (`sanctions_names`, keyword sets) the embedded
  function takes the already de-duplicated list as the parameter, or uses a
  first-occurrence de-duplication where only membership matters.
-/

abbrev Str := List Char

/-- ASCII fragment of Python regex `\s` / `str.strip` whitespace:
space, tab, newline, carriage return, vertical tab, form feed. -/
def isWS (c : Char) : Bool :=
  c == ' ' || c == '\t' || c == '\n' || c == '\r' || c == '\x0b' || c == '\x0c'

/-- `str.lower`, per character, ASCII range. -/
def lowerChar (c : Char) : Char :=
  if h : 65 ≤ c.toNat ∧ c.toNat ≤ 90 then
    Char.ofNatAux (c.toNat + 32) (Or.inl (by omega))
  else c

/-- `str.upper`, per character, ASCII range. -/
def upperChar (c : Char) : Char :=
  if h : 97 ≤ c.toNat ∧ c.toNat ≤ 122 then
    Char.ofNatAux (c.toNat - 32) (Or.inl (by omega))
  else c

def lowerStr (l : Str) : Str := l.map lowerChar

def upperStr (l : Str) : Str := l.map upperChar

/-- Python `str.strip()`: drop leading and trailing whitespace. -/
def pyStrip (l : Str) : Str :=
  ((l.dropWhile isWS).reverse.dropWhile isWS).reverse

/-- Python `u in l` on strings: `u` occurs as a contiguous substring of `l`. -/
def hasSub (u : Str) : Str → Bool
  | [] => u.isEmpty
  | c :: cs => u.isPrefixOf (c :: cs) || hasSub u cs

/-- One scan step of Python `str.replace(t, " ")` (non-overlapping, leftmost
first); `fuel` bounds the recursion and is instantiated with the length of the
scanned list, which suffices because every step consumes at least one
character when `t` is non-empty. -/
def replaceAllGo (t : Str) : Nat → Str → Str
  | _, [] => []
  | 0, l => l
  | fuel+1, c :: cs =>
    if t.isPrefixOf (c :: cs) then ' ' :: replaceAllGo t fuel (cs.drop (t.length - 1))
    else c :: replaceAllGo t fuel cs

/-- Python `n.replace(t, " ")`.  All tokens used by the sources are non-empty;
for an empty pattern the model returns the input unchanged. -/
def replaceAll (t : Str) (l : Str) : Str :=
  if t.isEmpty then l else replaceAllGo t l.length l

/-- The successive `n.replace(t, " ")` calls over a token list. -/
def applyTokens (ts : List Str) (l : Str) : Str :=
  ts.foldl (fun acc t => replaceAll t acc) l

/-- Characters kept verbatim by `re.sub(r"[^a-z0-9\s]", " ", n)`. -/
def keepChar (c : Char) : Bool :=
  (97 ≤ c.toNat && c.toNat ≤ 122) || (48 ≤ c.toNat && c.toNat ≤ 57) || isWS c

/-- `re.sub(r"[^a-z0-9\s]", " ", n)`: replace every character that is not a
lowercase letter, digit or whitespace by a space. -/
def stripPunct (l : Str) : Str :=
  l.map (fun c => if keepChar c then c else ' ')

/-- `re.sub(r"\s+", " ", n)`: collapse every run of whitespace to one space.
A whitespace character is dropped when the next character is also whitespace,
otherwise it is emitted as a single `' '`. -/
def collapseWS : Str → Str
  | [] => []
  | [c] => [if isWS c then ' ' else c]
  | c :: c2 :: cs =>
    if isWS c && isWS c2 then collapseWS (c2 :: cs)
    else (if isWS c then ' ' else c) :: collapseWS (c2 :: cs)

/-- The `remove_tokens` list of `normalize_name` in `adverse_news9_app_v2_1.py`
(lines 59–60). -/
def remove_tokens9 : List Str :=
  ["public joint stock company".toList, "pjsc".toList, "plc".toList, "llc".toList,
   "ltd".toList, "limited".toList, "inc".toList, "corp".toList, "corporation".toList,
   "co.".toList, "company".toList, "sa".toList, "gmbh".toList, [',']]

/-- The `remove_tokens` list of `normalize_name` in `adverse_news8_app_v2.py`
(lines 62–63); it lists `pjsc` twice. -/
def remove_tokens8 : List Str :=
  ["public joint stock company".toList, "pjsc".toList, "plc".toList, "llc".toList,
   "ltd".toList, "limited".toList, "inc".toList, "corp".toList, "corporation".toList,
   "co.".toList, "company".toList, "sa".toList, "gmbh".toList, "pjsc".toList, [',']]

/-- `normalize_name` of `adverse_news9_app_v2_1.py` (lines 55–65): lowercase,
remove legal-suffix tokens, replace non-`[a-z0-9\s]` characters by spaces,
collapse whitespace, strip. -/
def normalize_name (n : Str) : Str :=
  if n = [] then [] else
  pyStrip (collapseWS (stripPunct (applyTokens remove_tokens9 (lowerStr n))))

/-- `normalize_name` of `adverse_news8_app_v2.py` (lines 57–67): same as the
v2.1 normalizer but WITHOUT the `re.sub(r"[^a-z0-9\s]", " ", n)` step. -/
def normalize_name_v8 (n : Str) : Str :=
  if n = [] then [] else
  pyStrip (collapseWS (applyTokens remove_tokens8 (lowerStr n)))

/-! ### difflib sequence similarity

`fuzzy_match(a, b)` in `adverse_news8_app_v2.py` / `adverse_news9_app_v2_1.py`
and the inline `difflib.SequenceMatcher(None, x, y).ratio()` of the other two
variants: the Ratcliff/Obershelp ratio `2 * M / (len(a) + len(b))` where `M` is
the total size of the matching blocks found by recursively taking the longest
matching block.  `SequenceMatcher` is constructed with `junk=None`, so the junk
set is empty; the `autojunk` heuristic (on by default) drops characters
occurring more than `len(b) // 100 + 1` times from the position index when
`len(b) >= 200`. -/

/-- Positions (ascending) of `c` in `b` surviving difflib's autojunk
heuristic. -/
def b2j (b : Str) (c : Char) : List Nat :=
  if b.length ≥ 200 && b.count c > b.length / 100 + 1 then []
  else b.enum.filterMap (fun p => if p.2 == c then some p.1 else none)

/-- One row of difflib `find_longest_match`: fold the candidate positions `js`
of `a[i]` (ascending), extend the run lengths recorded for the previous row,
and update the best block exactly when a strictly longer one is found — which
reproduces difflib's tie-break (first maximum scanning `i` then `j` upward). -/
def flmRow (i blo bhi : Nat) (prev : List (Nat × Nat)) (js : List Nat)
    (best : Nat × Nat × Nat) : List (Nat × Nat) × (Nat × Nat × Nat) :=
  js.foldl (fun acc j =>
    if blo ≤ j && j < bhi then
      let k := (if j = 0 then 0 else (prev.lookup (j - 1)).getD 0) + 1
      (acc.1 ++ [(j, k)],
       if k > acc.2.2.2 then (i + 1 - k, j + 1 - k, k) else acc.2)
    else acc) (([] : List (Nat × Nat)), best)

/-- The main dynamic program of difflib `find_longest_match` over the window
`a[alo:ahi]`, `b[blo:bhi]`. -/
def flmLoop (a b : Str) (alo ahi blo bhi : Nat) : Nat × Nat × Nat :=
  ((List.range' alo (ahi - alo)).foldl
    (fun st i => flmRow i blo bhi st.1 (b2j b (a.getD i ' ')) st.2)
    (([] : List (Nat × Nat)), (alo, blo, 0))).2

/-- The backward extension loop of `find_longest_match` ("while besti > alo and
bestj > blo and a[besti-1] == b[bestj-1]"); fuel bounds the loop and `besti`
suffices. -/
def extBack (a b : Str) (alo blo : Nat) : Nat → Nat × Nat × Nat → Nat × Nat × Nat
  | 0, st => st
  | fuel+1, (besti, bestj, bestsize) =>
    if alo < besti && blo < bestj &&
        (match a.get? (besti - 1), b.get? (bestj - 1) with
         | some x, some y => x == y
         | _, _ => false) then
      extBack a b alo blo fuel (besti - 1, bestj - 1, bestsize + 1)
    else (besti, bestj, bestsize)

/-- The forward extension loop of `find_longest_match`; fuel `ahi` suffices. -/
def extFwd (a b : Str) (ahi bhi : Nat) : Nat → Nat × Nat × Nat → Nat × Nat × Nat
  | 0, st => st
  | fuel+1, (besti, bestj, bestsize) =>
    if besti + bestsize < ahi && bestj + bestsize < bhi &&
        (match a.get? (besti + bestsize), b.get? (bestj + bestsize) with
         | some x, some y => x == y
         | _, _ => false) then
      extFwd a b ahi bhi fuel (besti, bestj, bestsize + 1)
    else (besti, bestj, bestsize)

/-- difflib `SequenceMatcher.find_longest_match` with an empty junk set: the
dynamic program over non-popular positions followed by the two non-junk
extension loops.  (The final two junk extension loops of the original never
fire because `junk=None` makes `bjunk` empty.) -/
def find_longest_match (a b : Str) (alo ahi blo bhi : Nat) : Nat × Nat × Nat :=
  extFwd a b ahi bhi ahi (extBack a b alo blo (flmLoop a b alo ahi blo bhi).1
    (flmLoop a b alo ahi blo bhi))

/-- Total size of the matching blocks of difflib `get_matching_blocks` over a
window (only the sum matters for `ratio`); fuel bounds the recursion depth and
`a.length + 1` suffices since the `a`-window shrinks strictly. -/
def matchedTotal (a b : Str) : Nat → Nat → Nat → Nat → Nat → Nat
  | 0, _, _, _, _ => 0
  | fuel+1, alo, ahi, blo, bhi =>
    let r := find_longest_match a b alo ahi blo bhi
    if r.2.2 = 0 then 0
    else r.2.2 + matchedTotal a b fuel alo r.1 blo r.2.1 +
      matchedTotal a b fuel (r.1 + r.2.2) ahi (r.2.1 + r.2.2) bhi

/-- `difflib.SequenceMatcher(None, a, b).ratio()`: `2M / (len(a)+len(b))`,
and `1.0` when both inputs are empty. -/
def fuzzy_match (a b : Str) : ℚ :=
  if a.length + b.length = 0 then 1
  else (2 * (matchedTotal a b (a.length + 1) 0 a.length 0 b.length) : ℚ) /
    (a.length + b.length)

/-- Round half to even to an integer (Python `round`, modelled at rational
precision). -/
def roundHalfEven (y : ℚ) : ℤ :=
  let f := ⌊y⌋
  if y - f < 1/2 then f
  else if y - f > 1/2 then f + 1
  else if f % 2 = 0 then f else f + 1

/-- Python `round(x, 2)` at rational precision. -/
def round2 (x : ℚ) : ℚ := (roundHalfEven (100 * x) : ℚ) / 100

/-- A sanctions match record `{"sanctioned_name": ..., "similarity": round(score, 2)}`. -/
structure SMatch where
  sanctioned_name : Str
  similarity : ℚ
deriving DecidableEq

/-- Descending comparison on the stored (rounded) similarity field, used by
`sorted(matches, key=lambda x: -x["similarity"])`. -/
def simGE (x y : SMatch) : Prop := y.similarity ≤ x.similarity

instance : DecidableRel simGE := fun x y =>
  inferInstanceAs (Decidable (y.similarity ≤ x.similarity))

instance : IsTotal SMatch simGE := ⟨fun x y => le_total y.similarity x.similarity⟩

instance : IsTrans SMatch simGE := ⟨fun _ _ _ h1 h2 => le_trans h2 h1⟩

/-- `sorted(matches, key=lambda x: -x["similarity"])`: Python's sort is stable,
so it is modelled by insertion sort with `simGE`, which is stable (proved
below) and sorts descending on the similarity field. -/
def sortMatches (l : List SMatch) : List SMatch := List.insertionSort simGE l

/-- The sanctions matcher (spec §4.3) as implemented by all four variants:
normalize the query once, normalize and score each candidate with
`fuzzy_match`, keep candidates scoring at least the threshold, record the
candidate with the two-decimal rounded score, and stable-sort descending on
the rounded similarity.  `adverse_news9_app_v2_1.py` lines 229–237 and
`adverse_news8_app_v2.py` lines 222–231 instantiate `nf := normalize_name`
(resp. `normalize_name_v8`) and `θ := 0.6`; `adverse_news5_app_Version2.py`
lines 60–68 and `adverse_news_app.py` lines 87–95 instantiate `nf := lowerStr`
and `θ := 0.8` and pre-filter falsy entries. -/
def match_sanctions (nf : Str → Str) (q : Str) (cands : List Str) (θ : ℚ) : List SMatch :=
  sortMatches (cands.filterMap (fun s =>
    if θ ≤ fuzzy_match (nf q) (nf s) then
      some ⟨s, round2 (fuzzy_match (nf q) (nf s))⟩ else none))

/-- `search_sanctions` of `adverse_news5_app_Version2.py` (lines 60–68) and
`adverse_news_app.py` (lines 87–95), with the fetched combined name list as an
input: drop falsy (empty) entries, lowercase both sides, keep ratio ≥ 0.8,
sort descending by rounded similarity. -/
def search_sanctions (sanctioned : List Str) (name_query : Str) : List SMatch :=
  match_sanctions lowerStr name_query (sanctioned.filter (fun s => !s.isEmpty)) (4/5)

/-! ### Article classification -/

/-- A unified fetched article record (title, description, date, url, source
tag), as assembled by the `fetch_from_*` helpers. -/
structure Article where
  title : Str
  desc : Str
  date : Str
  url : Str
  source : Str
deriving DecidableEq

/-- A result row as appended by the transformer variants' `search_all` (the
`snippet_html` display field is omitted here; the highlighting transform that
produces it is modelled separately by `color_highlight_terms`). -/
structure RItem where
  title : Str
  source : Str
  date : Str
  url : Str
  score : ℚ
  severity : Str
  model_label : Str
deriving DecidableEq

/-- A result row of `adverse_news5_app_Version2.py` (no `model_label` field;
`snippet_html` omitted as above). -/
structure Result5 where
  title : Str
  source : Str
  date : Str
  url : Str
  score : ℚ
  severity : Str
deriving DecidableEq

/-- `categorize_severity` of `adverse_news5_app_Version2.py` (lines 131–140). -/
def categorize_severity (score : ℚ) : Str :=
  if score ≤ -0.5 then "High".toList
  else if -0.5 < score ∧ score ≤ -0.2 then "Medium".toList
  else if -0.2 < score ∧ score < 0 then "Low".toList
  else "Not Negative".toList

/-- The confidence→severity mapping of the transformer variants
(`adverse_news_app.py` lines 229–234 and identically in v8/v9). -/
def severity_of (score : ℚ) : Str :=
  if score ≥ 0.85 then "High".toList
  else if score ≥ 0.6 then "Medium".toList
  else "Low".toList

/-- The negativity decision of the transformer variants
(`adverse_news_app.py` lines 216–223, `adverse_news8_app_v2.py` lines
259–267, `adverse_news9_app_v2_1.py` lines 262–268): negative when the
lowercased label contains "neg" or "negative", or when the selected model
name is truthy, contains "twitter-roberta", and the uppercased label starts
with "LABEL_" and equals "LABEL_0". -/
def is_negative (model_choice : Str) (label : Str) : Bool :=
  let lab_lower := lowerStr label
  (hasSub "neg".toList lab_lower || hasSub "negative".toList lab_lower)
  || ((!model_choice.isEmpty) && hasSub "twitter-roberta".toList model_choice
      && "LABEL_".toList.isPrefixOf (upperStr label)
      && upperStr label == "LABEL_0".toList)

/-- One call of the sentiment pipeline under the per-article try/except
(`adverse_news_app.py` lines 207–212 and identically in v8/v9): on success
the returned (label, score); on a raised error the pair `("ERROR", 0.0)`.
The call receives the text truncated to 1024 characters. -/
def classifyText (cls : Str → Except Unit (Str × ℚ)) (text : Str) : Str × ℚ :=
  match cls (text.take 1024) with
  | .ok r => r
  | .error _ => ("ERROR".toList, 0)

/-- The per-article body of the news loop shared verbatim by
`adverse_news_app.py` `search_all` (lines 199–249) and
`adverse_news8_app_v2.py` `search_all` (lines 245–290): skip articles whose
text strips to empty, classify, keep only negative labels, bucket severity by
confidence, and drop non-High rows when the high-severity toggle is set. -/
def processNewsArticle (model_choice : Str) (high_severity : Bool)
    (cls : Str → Except Unit (Str × ℚ)) (art : Article) : Option RItem :=
  let text := art.title ++ ' ' :: art.desc
  if pyStrip text = [] then none
  else
    let lr := classifyText cls text
    if !is_negative model_choice lr.1 then none
    else
      let severity := severity_of lr.2
      if high_severity && !(severity == "High".toList) then none
      else some ⟨art.title, art.source, art.date, art.url, lr.2, severity, lr.1⟩

/-- The per-article body of the news loop of `adverse_news9_app_v2_1.py`
`search_all` (lines 251–292): as `processNewsArticle`, but the displayed
title is the stripped title, falling back to the stripped description. -/
def processArticle_v9 (model_choice : Str) (high_severity : Bool)
    (cls : Str → Except Unit (Str × ℚ)) (art : Article) : Option RItem :=
  let text := art.title ++ ' ' :: art.desc
  if pyStrip text = [] then none
  else
    let lr := classifyText cls text
    if !is_negative model_choice lr.1 then none
    else
      let severity := severity_of lr.2
      if high_severity && !(severity == "High".toList) then none
      else
        let headline := if pyStrip art.title ≠ [] then pyStrip art.title else pyStrip art.desc
        some ⟨headline, art.source, art.date, art.url, lr.2, severity, lr.1⟩

/-- The result row appended for one sanctions match
(`adverse_news8_app_v2.py` lines 233–242, `adverse_news9_app_v2_1.py` lines
239–248): severity High, label SANCTIONS_MATCH, empty date and url, score
equal to the stored (rounded) similarity; `snippet_html` omitted. -/
def sanctionsRow (m : SMatch) : RItem :=
  ⟨"Sanctions match: ".toList ++ m.sanctioned_name, "SanctionsLists".toList,
   [], [], m.similarity, "High".toList, "SANCTIONS_MATCH".toList⟩

/-- `search_all` of `adverse_news8_app_v2.py` (lines 194–291), with the
fetched article list, the de-duplicated sanctions name list and the
classifier as inputs: when the name is truthy (non-empty), the sorted
sanctions matches at threshold 0.6 come first, followed by the classified
negative news articles. -/
def search_all_v8 (name : Str) (articles : List Article) (sanctions_names : List Str)
    (cls : Str → Except Unit (Str × ℚ)) (model_choice : Str) (high_severity : Bool) :
    List RItem :=
  (if name ≠ [] then
    (match_sanctions normalize_name_v8 name sanctions_names (3/5)).map sanctionsRow
   else []) ++ articles.filterMap (processNewsArticle model_choice high_severity cls)

/-- `search_all` of `adverse_news9_app_v2_1.py` (lines 206–293): an empty or
whitespace-only name returns the empty list at once (no sanctions matching
AND no news classification); otherwise sorted sanctions matches at threshold
0.6 come first, followed by the classified negative news articles. -/
def search_all_v9 (name : Str) (articles : List Article) (sanctions_names : List Str)
    (cls : Str → Except Unit (Str × ℚ)) (model_choice : Str) (high_severity : Bool) :
    List RItem :=
  if name = [] || pyStrip name = [] then []
  else
    (match_sanctions normalize_name name sanctions_names (3/5)).map sanctionsRow
      ++ articles.filterMap (processArticle_v9 model_choice high_severity cls)

/-- The per-article body of `adverse_news5_app_Version2.py` `search_all`
(lines 174–196): lexicon compound score via `sia`, severity via
`categorize_severity`, drop "Not Negative" articles, and drop non-High rows
when the high-severity toggle is set (`snippet_html` omitted). -/
def processArticle_v5 (high_severity : Bool) (sia : Str → ℚ) (art : Article) :
    Option Result5 :=
  let text := art.title ++ ' ' :: art.desc
  let score := sia text
  let severity := categorize_severity score
  if severity == "Not Negative".toList then none
  else if high_severity && !(severity == "High".toList) then none
  else some ⟨art.title, art.source, art.date, art.url, score, severity⟩

/-- The news-classification stage of `adverse_news5_app_Version2.py`
`search_all` over a fetched article list. -/
def search_all_v5 (high_severity : Bool) (sia : Str → ℚ) (articles : List Article) :
    List Result5 :=
  articles.filterMap (processArticle_v5 high_severity sia)

/-! ### Highlighter -/

/-- Python regex `\w` (ASCII fragment): letters, digits, underscore. -/
def wordChar (c : Char) : Bool :=
  (97 ≤ c.toNat && c.toNat ≤ 122) || (65 ≤ c.toNat && c.toNat ≤ 90) ||
  (48 ≤ c.toNat && c.toNat ≤ 57) || c == '_'

/-- Regex `\b` between two adjacent positions: exactly one side is a word
character (the outside of the text counts as a non-word side). -/
def wbreak (l r : Option Char) : Bool :=
  (l.elim false wordChar) != (r.elim false wordChar)

/-- Whether the escaped-literal pattern `kw` matches case-insensitively at the
head of `l`, with `\b` boundaries against `prev` (the original character just
before this position) and the character following the match. -/
def kwMatchAt (kw : Str) (prev : Option Char) (l : Str) : Bool :=
  !kw.isEmpty && (lowerStr kw).isPrefixOf (lowerStr l)
  && wbreak prev l.head?
  && wbreak (l.take kw.length).getLast? (l.drop kw.length).head?

/-- `re.sub(fr"(?i)\b({re.escape(kw)})\b", repl, text)` for a literal keyword
`kw`: scan left to right, replace each non-overlapping boundary-delimited
case-insensitive occurrence of `kw` by `wrap` applied to the matched
original-case slice, and continue scanning after the matched slice.  Fuel
(instantiated with the scanned length) bounds the recursion; a match consumes
at least one character. -/
def subKwGo (kw : Str) (wrap : Str → Str) : Nat → Option Char → Str → Str
  | _, _, [] => []
  | 0, _, l => l
  | fuel+1, prev, c :: cs =>
    if kwMatchAt kw prev (c :: cs) then
      let m := (c :: cs).take kw.length
      wrap m ++ subKwGo kw wrap fuel m.getLast? ((c :: cs).drop kw.length)
    else c :: subKwGo kw wrap fuel (some c) cs

def subKw (kw : Str) (wrap : Str → Str) (l : Str) : Str :=
  subKwGo kw wrap l.length none l

/-- An ASCII single-quote character (code 39). -/
def quoteChar : Char := Char.ofNatAux 39 (Or.inl (by omega))

/-- The opening tag wrapped around the query name by `color_highlight_terms`. -/
def yellowOpen : Str :=
  "<span style=".toList ++ quoteChar :: "background-color: #fff176; font-weight:bold;".toList
    ++ quoteChar :: ">".toList

/-- The opening tag wrapped around keywords by `color_highlight_terms`. -/
def redOpen : Str :=
  "<span style=".toList ++ quoteChar :: "background-color: #ef9a9a; font-weight:bold;".toList
    ++ quoteChar :: ">".toList

def spanClose : Str := "</span>".toList

/-- `sorted(set(keywords), key=lambda s: -len(s))`: de-duplicate and
stable-sort by decreasing length.  (Python's set iteration order is
unspecified, so the relative order of equal-length keywords is not defined by
the source; first-occurrence order is used here.) -/
def sortKeywords (kws : List Str) : List Str :=
  List.insertionSort (fun a b => b.length ≤ a.length) kws.eraseDups

/-- `color_highlight_terms` of `adverse_news5_app_Version2.py` (lines
165–172): wrap whole-word case-insensitive occurrences of the name in the
yellow marker, then for each keyword in decreasing length order wrap its
whole-word case-insensitive occurrences in the red marker; each `re.sub` runs
on the output of the previous one.  (This is the variant whose replacement
template has a working backreference `\1`; in `adverse_news_app.py` /
`adverse_news8_app_v2.py` the template says `\\1`, inserting a literal
backslash-one instead of the match.) -/
def color_highlight_terms (text : Str) (name : Str) (keywords : List Str) : Str :=
  let t1 := if name ≠ [] then subKw name (fun m => yellowOpen ++ m ++ spanClose) text
    else text
  (sortKeywords keywords).foldl
    (fun t kw => subKw kw (fun m => redOpen ++ m ++ spanClose) t) t1

/-! ### Basic substring lemmas -/

theorem isPrefixOf_trans : ∀ {u v l : Str}, u.isPrefixOf v = true →
    v.isPrefixOf l = true → u.isPrefixOf l = true
  | [], _, l, _, _ => by cases l <;> rfl
  | _ :: _, [], _, h1, _ => by simp [List.isPrefixOf] at h1
  | _ :: _, _ :: _, [], _, h2 => by simp [List.isPrefixOf] at h2
  | a :: as, b :: bs, c :: cs, h1, h2 => by
    simp only [List.isPrefixOf, Bool.and_eq_true, beq_iff_eq] at h1 h2 ⊢
    exact ⟨h1.1.trans h2.1, isPrefixOf_trans h1.2 h2.2⟩

theorem hasSub_trans_pre : ∀ {u v : Str} (l : Str), u.isPrefixOf v = true →
    hasSub v l = true → hasSub u l = true := by
  intro u v l h1 h2
  induction l with
  | nil =>
    simp only [hasSub, List.isEmpty_iff] at h2
    subst h2
    cases u with
    | nil => rfl
    | cons a as => simp [List.isPrefixOf] at h1
  | cons c cs ih =>
    simp only [hasSub, Bool.or_eq_true] at h2 ⊢
    rcases h2 with h2 | h2
    · exact Or.inl (isPrefixOf_trans h1 h2)
    · exact Or.inr (ih h2)

/-! ### C2: lexicon severity bucketing -/

/-- C2: for every lexicon compound score `s`, `categorize_severity` is total
with buckets `s ≤ -0.5 → High`, `-0.5 < s ≤ -0.2 → Medium`,
`-0.2 < s < 0 → Low`, `s ≥ 0 → Not Negative`; in particular `-0.6 → High`,
`-0.3 → Medium`, `-0.1 → Low`, `0.1 → Not Negative`; and an article whose
score is `≥ 0` is excluded from the v5 results (filtered out, not tagged).
The bucket is a function of the score alone, being a plain function. -/
theorem categorize_severity_buckets :
    (∀ s : ℚ,
      (s ≤ -0.5 → categorize_severity s = "High".toList)
      ∧ (-0.5 < s → s ≤ -0.2 → categorize_severity s = "Medium".toList)
      ∧ (-0.2 < s → s < 0 → categorize_severity s = "Low".toList)
      ∧ (0 ≤ s → categorize_severity s = "Not Negative".toList))
    ∧ categorize_severity (-0.6) = "High".toList
    ∧ categorize_severity (-0.3) = "Medium".toList
    ∧ categorize_severity (-0.1) = "Low".toList
    ∧ categorize_severity 0.1 = "Not Negative".toList
    ∧ (∀ (hs : Bool) (sia : Str → ℚ) (art : Article),
        0 ≤ sia (art.title ++ ' ' :: art.desc) →
        processArticle_v5 hs sia art = none) := by
  have hbuck : ∀ s : ℚ,
      (s ≤ -0.5 → categorize_severity s = "High".toList)
      ∧ (-0.5 < s → s ≤ -0.2 → categorize_severity s = "Medium".toList)
      ∧ (-0.2 < s → s < 0 → categorize_severity s = "Low".toList)
      ∧ (0 ≤ s → categorize_severity s = "Not Negative".toList) := by
    intro s
    unfold categorize_severity
    refine ⟨fun h => ?_, fun h1 h2 => ?_, fun h1 h2 => ?_, fun h => ?_⟩ <;>
      split_ifs <;> first | rfl | (exfalso; tauto) |
        (exfalso; push_neg at *; linarith)
  refine ⟨hbuck, ?_, ?_, ?_, ?_, ?_⟩
  · exact (hbuck (-0.6)).1 (by norm_num)
  · exact (hbuck (-0.3)).2.1 (by norm_num) (by norm_num)
  · exact (hbuck (-0.1)).2.2.1 (by norm_num) (by norm_num)
  · exact (hbuck 0.1).2.2.2 (by norm_num)
  · intro hs sia art h
    have hx := (hbuck _).2.2.2 h
    simp [processArticle_v5, hx]

/-- Closed witness for C2 at concrete scores and a concrete article. -/
theorem categorize_severity_buckets_witness :
    categorize_severity (-1) = "High".toList
    ∧ processArticle_v5 false (fun _ => 1/2) ⟨[], [], [], [], []⟩ = none :=
  ⟨(categorize_severity_buckets.1 (-1)).1 (by norm_num),
   categorize_severity_buckets.2.2.2.2.2 false (fun _ => 1/2) ⟨[], [], [], [], []⟩
     (by norm_num)⟩

/-! ### C3: transformer negativity decision and confidence bucketing -/

theorem is_negative_iff (mc label : Str) :
    is_negative mc label = true ↔
      (hasSub "neg".toList (lowerStr label) = true
        ∨ (mc ≠ [] ∧ hasSub "twitter-roberta".toList mc = true
            ∧ upperStr label = "LABEL_0".toList)) := by
  unfold is_negative
  simp only [Bool.or_eq_true, Bool.and_eq_true, beq_iff_eq]
  constructor
  · rintro ((h | h) | ⟨⟨⟨hmc, hrob⟩, _⟩, heq⟩)
    · exact Or.inl h
    · exact Or.inl (hasSub_trans_pre _ (by decide) h)
    · refine Or.inr ⟨?_, hrob, heq⟩
      intro hnil
      rw [hnil] at hmc
      simp at hmc
  · rintro (h | ⟨hmc, hrob, heq⟩)
    · exact Or.inl (Or.inl h)
    · refine Or.inr ⟨⟨⟨?_, hrob⟩, ?_⟩, heq⟩
      · cases mc with
        | nil => exact absurd rfl hmc
        | cons c cs => rfl
      · rw [heq]
        decide

theorem severity_of_buckets (s : ℚ) :
    (0.85 ≤ s → severity_of s = "High".toList)
    ∧ (0.6 ≤ s → s < 0.85 → severity_of s = "Medium".toList)
    ∧ (s < 0.6 → severity_of s = "Low".toList) := by
  unfold severity_of
  refine ⟨fun h => ?_, fun h1 h2 => ?_, fun h => ?_⟩ <;> split_ifs <;>
    first | rfl | (exfalso; push_neg at *; simp only [ge_iff_le] at *; linarith)

/-- C3: an article with classifier output `(label, confidence)` is treated as
negative exactly when the lowercased label contains "neg", or the configured
model name contains "twitter-roberta" and the uppercased label equals the
opaque negative code LABEL_0; a negative article is bucketed High at
confidence ≥ 0.85, Medium at ≥ 0.6, else Low, and a non-negative article is
excluded from the results entirely. -/
theorem transformer_negativity_and_buckets :
    (∀ mc label : Str,
      is_negative mc label = true ↔
        (hasSub "neg".toList (lowerStr label) = true
          ∨ (mc ≠ [] ∧ hasSub "twitter-roberta".toList mc = true
              ∧ upperStr label = "LABEL_0".toList)))
    ∧ (∀ s : ℚ, (0.85 ≤ s → severity_of s = "High".toList)
        ∧ (0.6 ≤ s → s < 0.85 → severity_of s = "Medium".toList)
        ∧ (s < 0.6 → severity_of s = "Low".toList))
    ∧ (∀ (mc : Str) (cls : Str → Except Unit (Str × ℚ)) (art : Article)
        (label : Str) (conf : ℚ),
        pyStrip (art.title ++ ' ' :: art.desc) ≠ [] →
        cls ((art.title ++ ' ' :: art.desc).take 1024) = .ok (label, conf) →
        processNewsArticle mc false cls art =
          (if is_negative mc label then
            some ⟨art.title, art.source, art.date, art.url, conf, severity_of conf, label⟩
          else none)) := by
  refine ⟨is_negative_iff, severity_of_buckets, ?_⟩
  intro mc cls art label conf htext hcls
  cases h : is_negative mc label <;>
    simp [processNewsArticle, classifyText, hcls, htext, h]

/-- Closed witness for C3: a negative finbert-style label at confidence 0.9 is
kept as High; a positive label is excluded. -/
theorem transformer_negativity_and_buckets_witness :
    processNewsArticle "ProsusAI/finbert".toList false
        (fun _ => .ok ("negative".toList, 0.9)) ⟨"t".toList, [], [], [], []⟩ =
      some ⟨"t".toList, [], [], [], 0.9, severity_of 0.9, "negative".toList⟩ := by
  have h := transformer_negativity_and_buckets.2.2 "ProsusAI/finbert".toList
    (fun _ => .ok ("negative".toList, 0.9)) ⟨"t".toList, [], [], [], []⟩
    "negative".toList 0.9 (by decide) rfl
  rw [h]
  have hn : is_negative "ProsusAI/finbert".toList "negative".toList = true := by decide
  rw [hn]
  simp

/-! ### C5: classifier errors degrade to a neutral excluded item -/

theorem is_negative_error (mc : Str) : is_negative mc "ERROR".toList = false := by
  have h1 : hasSub "neg".toList (lowerStr "ERROR".toList) = false := by decide
  have h2 : hasSub "negative".toList (lowerStr "ERROR".toList) = false := by decide
  have h3 : "LABEL_".toList.isPrefixOf (upperStr "ERROR".toList) = false := by decide
  simp only [is_negative]
  rw [h1, h2, h3]
  simp

theorem processNews_error_none (mc : Str) (hs : Bool)
    (cls : Str → Except Unit (Str × ℚ)) (art : Article)
    (hcls : cls ((art.title ++ ' ' :: art.desc).take 1024) = .error ()) :
    processNewsArticle mc hs cls art = none := by
  have he : is_negative mc ['E', 'R', 'R', 'O', 'R'] = false := is_negative_error mc
  by_cases ht : pyStrip (art.title ++ ' ' :: art.desc) = [] <;>
    simp [processNewsArticle, classifyText, hcls, ht, he]

theorem processV9_error_none (mc : Str) (hs : Bool)
    (cls : Str → Except Unit (Str × ℚ)) (art : Article)
    (hcls : cls ((art.title ++ ' ' :: art.desc).take 1024) = .error ()) :
    processArticle_v9 mc hs cls art = none := by
  have he : is_negative mc ['E', 'R', 'R', 'O', 'R'] = false := is_negative_error mc
  by_cases ht : pyStrip (art.title ++ ' ' :: art.desc) = [] <;>
    simp [processArticle_v9, classifyText, hcls, ht, he]

/-- C5: when the classifier raises on one article, that article gets the
neutral `("ERROR", 0.0)` outcome, which is not negative, so it is excluded
from the results; the batch is a per-article `filterMap`, so every remaining
article in the batch is still processed (no failure aborts the batch). -/
theorem classifier_error_fail_open :
    (∀ mc : Str, is_negative mc "ERROR".toList = false)
    ∧ (∀ (mc : Str) (hs : Bool) (cls : Str → Except Unit (Str × ℚ)) (art : Article),
        cls ((art.title ++ ' ' :: art.desc).take 1024) = .error () →
        processNewsArticle mc hs cls art = none
          ∧ processArticle_v9 mc hs cls art = none)
    ∧ (∀ (mc : Str) (hs : Bool) (cls : Str → Except Unit (Str × ℚ))
        (pre post : List Article) (art : Article),
        cls ((art.title ++ ' ' :: art.desc).take 1024) = .error () →
        (pre ++ art :: post).filterMap (processNewsArticle mc hs cls) =
          pre.filterMap (processNewsArticle mc hs cls)
            ++ post.filterMap (processNewsArticle mc hs cls)) := by
  refine ⟨is_negative_error,
    fun mc hs cls art h => ⟨processNews_error_none mc hs cls art h,
      processV9_error_none mc hs cls art h⟩, ?_⟩
  intro mc hs cls pre post art hcls
  rw [List.filterMap_append, List.filterMap_cons,
    processNews_error_none mc hs cls art hcls]

/-- Closed witness for C5: a failing classifier call on the middle article of
a three-article batch excludes only that article. -/
theorem classifier_error_fail_open_witness :
    processNewsArticle [] false (fun _ => .error ())
        (Article.mk "t".toList [] [] [] []) = none
    ∧ ([Article.mk "a".toList [] [] [] []] ++ Article.mk "t".toList [] [] [] []
          :: [Article.mk "b".toList [] [] [] []]).filterMap
        (processNewsArticle [] false (fun _ => .error ())) =
      [Article.mk "a".toList [] [] [] []].filterMap
          (processNewsArticle [] false (fun _ => .error ()))
        ++ [Article.mk "b".toList [] [] [] []].filterMap
          (processNewsArticle [] false (fun _ => .error ())) :=
  ⟨(classifier_error_fail_open.2.1 [] false (fun _ => .error ())
      (Article.mk "t".toList [] [] [] []) rfl).1,
   classifier_error_fail_open.2.2 [] false (fun _ => .error ())
     [Article.mk "a".toList [] [] [] []] [Article.mk "b".toList [] [] [] []]
     (Article.mk "t".toList [] [] [] []) rfl⟩


/-! ### C1: the sanctions matcher keeps exactly the candidates at or above the
threshold and returns them stably sorted, descending by similarity -/

theorem orderedInsert_filter_of_sim (v : ℚ) (x : SMatch) :
    ∀ l : List SMatch, l.Sorted simGE →
      (List.orderedInsert simGE x l).filter (fun m => m.similarity == v) =
        if x.similarity = v then x :: l.filter (fun m => m.similarity == v)
        else l.filter (fun m => m.similarity == v) := by
  intro l
  induction l with
  | nil =>
    intro _
    by_cases hx : x.similarity = v
    · have hb : (x.similarity == v) = true := beq_iff_eq.mpr hx
      simp [List.orderedInsert, List.filter_cons, hb, hx]
    · have hb : (x.similarity == v) = false := by
        simp [hx]
      simp [List.orderedInsert, List.filter_cons, hb, hx]
  | cons y ys ih =>
    intro hs
    have hys : ys.Sorted simGE := hs.of_cons
    by_cases hxy : simGE x y
    · simp only [List.orderedInsert, if_pos hxy]
      by_cases hx : x.similarity = v
      · have hb : (x.similarity == v) = true := beq_iff_eq.mpr hx
        simp [List.filter_cons, hb, hx]
      · have hb : (x.similarity == v) = false := by simp [hx]
        simp [List.filter_cons, hb, hx]
    · have hlt : x.similarity < y.similarity := lt_of_not_le hxy
      simp only [List.orderedInsert, if_neg hxy]
      by_cases hx : x.similarity = v
      · have hy : ¬ y.similarity = v := fun h => lt_irrefl _ (hx ▸ h ▸ hlt)
        have hby : (y.similarity == v) = false := by simp [hy]
        simp [List.filter_cons, hby, ih hys, hx]
      · simp only [List.filter_cons, ih hys, if_neg hx]

theorem insertionSort_filter_of_sim (v : ℚ) :
    ∀ l : List SMatch,
      (List.insertionSort simGE l).filter (fun m => m.similarity == v) =
        l.filter (fun m => m.similarity == v) := by
  intro l
  induction l with
  | nil => rfl
  | cons x xs ih =>
    simp only [List.insertionSort]
    rw [orderedInsert_filter_of_sim v x _ (List.sorted_insertionSort simGE xs)]
    by_cases hx : x.similarity = v
    · have hb : (x.similarity == v) = true := beq_iff_eq.mpr hx
      simp [List.filter_cons, hb, hx, ih]
    · have hb : (x.similarity == v) = false := by simp [hx]
      simp [List.filter_cons, hb, hx, ih]

/-- C1: for every normalizer instance, query name, candidate list and
threshold, the sanctions matcher produces a match record exactly for those
candidates whose similarity score against the normalized query is ≥ the
threshold (storing the candidate and the two-decimal rounded score), and its
output is a permutation of the filtered candidate list, sorted descending by
the stored similarity, and stable: for every similarity value, the matches
carrying that value appear in candidate-list order.  `search_sanctions` (v5 /
transformer app) is the lowercase-normalizer, 0.8-threshold instance over the
de-falsied fetched list. -/
theorem match_sanctions_spec :
    (∀ (nf : Str → Str) (q : Str) (cands : List Str) (θ : ℚ),
      (match_sanctions nf q cands θ).Perm
        (cands.filterMap (fun s =>
          if θ ≤ fuzzy_match (nf q) (nf s) then
            some ⟨s, round2 (fuzzy_match (nf q) (nf s))⟩ else none))
      ∧ (∀ m : SMatch, m ∈ match_sanctions nf q cands θ ↔
          ∃ s ∈ cands, θ ≤ fuzzy_match (nf q) (nf s)
            ∧ m = ⟨s, round2 (fuzzy_match (nf q) (nf s))⟩)
      ∧ (match_sanctions nf q cands θ).Sorted simGE
      ∧ (∀ v : ℚ,
          (match_sanctions nf q cands θ).filter (fun m => m.similarity == v) =
          (cands.filterMap (fun s =>
            if θ ≤ fuzzy_match (nf q) (nf s) then
              some ⟨s, round2 (fuzzy_match (nf q) (nf s))⟩ else none)).filter
            (fun m => m.similarity == v)))
    ∧ (∀ (sanctioned : List Str) (name_query : Str),
        search_sanctions sanctioned name_query =
          match_sanctions lowerStr name_query
            (sanctioned.filter (fun s => !s.isEmpty)) (4/5)) := by
  refine ⟨fun nf q cands θ => ⟨?_, ?_, ?_, ?_⟩, fun _ _ => rfl⟩
  · exact List.perm_insertionSort simGE _
  · intro m
    unfold match_sanctions sortMatches
    rw [(List.perm_insertionSort simGE _).mem_iff]
    simp only [List.mem_filterMap]
    constructor
    · rintro ⟨s, hmem, hsome⟩
      by_cases hθ : θ ≤ fuzzy_match (nf q) (nf s)
      · rw [if_pos hθ] at hsome
        exact ⟨s, hmem, hθ, (Option.some_inj.mp hsome).symm⟩
      · rw [if_neg hθ] at hsome
        exact absurd hsome (Option.noConfusion)
    · rintro ⟨s, hmem, hθ, hm⟩
      exact ⟨s, hmem, by rw [if_pos hθ, hm]⟩
  · exact List.sorted_insertionSort simGE _
  · intro v
    exact insertionSort_filter_of_sim v _

/-! ### C4: candidates whose normalized form is empty

The sources contain NO guard skipping candidates with empty normalized form:
when the query also normalizes to empty, `SequenceMatcher("", "").ratio()` is
1.0 and a full-score match is produced.  When the normalized query is
non-empty, such candidates score 0.0 and fall below any positive threshold. -/

theorem flmLoop_nil_right (a : Str) (alo ahi blo bhi : Nat) :
    flmLoop a [] alo ahi blo bhi = (alo, blo, 0) := by
  unfold flmLoop
  generalize List.range' alo (ahi - alo) = L
  suffices h : ∀ st : List (Nat × Nat) × (Nat × Nat × Nat),
      (L.foldl (fun st i => flmRow i blo bhi st.1 (b2j [] (a.getD i ' ')) st.2) st).2
        = st.2 from h _
  induction L with
  | nil => intro st; rfl
  | cons x xs ih =>
    intro st
    rw [List.foldl_cons, ih _]
    rfl

theorem extBack_nil (a : Str) (alo blo : Nat) :
    ∀ fuel, extBack a [] alo blo fuel (alo, blo, 0) = (alo, blo, 0) := by
  intro fuel
  cases fuel with
  | zero => rfl
  | succ n =>
    unfold extBack
    simp

theorem extFwd_nil (a : Str) (ahi bhi : Nat) (alo blo : Nat) :
    ∀ fuel, extFwd a [] ahi bhi fuel (alo, blo, 0) = (alo, blo, 0) := by
  intro fuel
  cases fuel with
  | zero => rfl
  | succ n =>
    unfold extFwd
    have : (List.get? ([] : Str) (blo + 0)) = none := rfl
    simp [this]

theorem flm_nil_right (a : Str) (alo ahi blo bhi : Nat) :
    find_longest_match a [] alo ahi blo bhi = (alo, blo, 0) := by
  unfold find_longest_match
  rw [flmLoop_nil_right]
  show extFwd a [] ahi bhi ahi (extBack a [] alo blo alo (alo, blo, 0)) = (alo, blo, 0)
  rw [extBack_nil, extFwd_nil]

theorem matchedTotal_nil_right (a : Str) :
    ∀ fuel alo ahi blo bhi, matchedTotal a [] fuel alo ahi blo bhi = 0 := by
  intro fuel
  cases fuel with
  | zero => intro alo ahi blo bhi; rfl
  | succ n =>
    intro alo ahi blo bhi
    unfold matchedTotal
    rw [flm_nil_right]
    simp

/-- An empty second string (with a non-empty first) scores 0. -/
theorem fuzzy_match_nil_right (a : Str) (ha : a ≠ []) : fuzzy_match a [] = 0 := by
  unfold fuzzy_match
  rw [matchedTotal_nil_right]
  have hlen : a.length + ([] : Str).length ≠ 0 := by
    cases a with
    | nil => exact absurd rfl ha
    | cons c cs => simp
  rw [if_neg hlen]
  simp

/-- Membership in the matcher output, characterized (helper shared by the C1
and C4 developments). -/
theorem mem_match_sanctions (nf : Str → Str) (q : Str) (cands : List Str) (θ : ℚ)
    (m : SMatch) : m ∈ match_sanctions nf q cands θ ↔
      ∃ s ∈ cands, θ ≤ fuzzy_match (nf q) (nf s)
        ∧ m = ⟨s, round2 (fuzzy_match (nf q) (nf s))⟩ := by
  unfold match_sanctions sortMatches
  rw [(List.perm_insertionSort simGE _).mem_iff]
  simp only [List.mem_filterMap]
  constructor
  · rintro ⟨s, hmem, hsome⟩
    by_cases hθ : θ ≤ fuzzy_match (nf q) (nf s)
    · rw [if_pos hθ] at hsome
      exact ⟨s, hmem, hθ, (Option.some_inj.mp hsome).symm⟩
    · rw [if_neg hθ] at hsome
      exact absurd hsome (Option.noConfusion)
  · rintro ⟨s, hmem, hθ, hm⟩
    exact ⟨s, hmem, by rw [if_pos hθ, hm]⟩

/-- C4 counterexample: the claim "a candidate whose normalized form is empty
never yields a SanctionsMatch" is false on the code: with query "ltd"
(normalizing to empty) and candidate "inc" (also normalizing to empty), the
matcher produces a full-score match for "inc". -/
theorem empty_norm_candidate_counterexample :
    normalize_name "inc".toList = []
    ∧ match_sanctions normalize_name "ltd".toList ["inc".toList] (3/5) =
        [⟨"inc".toList, 1⟩] := by
  have h1 : normalize_name "ltd".toList = [] := by decide
  have h2 : normalize_name "inc".toList = [] := by decide
  have hfm : fuzzy_match (normalize_name "ltd".toList)
      (normalize_name "inc".toList) = 1 := by
    rw [h1, h2]; rfl
  have hle : (3/5 : ℚ) ≤
      fuzzy_match (normalize_name "ltd".toList) (normalize_name "inc".toList) := by
    rw [hfm]; norm_num
  have hr : round2 (fuzzy_match (normalize_name "ltd".toList)
      (normalize_name "inc".toList)) = 1 := by
    rw [hfm]
    norm_num [round2, roundHalfEven]
  refine ⟨h2, ?_⟩
  unfold match_sanctions sortMatches
  simp only [List.filterMap_cons, List.filterMap_nil, if_pos hle, hr]
  rfl

/-- C4 (amended): a candidate whose normalized form is empty produces a match
exactly when the query also normalizes to empty; whenever the normalized
query is non-empty and the threshold positive, the matcher yields no match
record naming such a candidate. -/
theorem empty_norm_candidate_excluded (nf : Str → Str) (q : Str)
    (cands : List Str) (θ : ℚ) (c : Str) (hθ : 0 < θ) (hq : nf q ≠ [])
    (hc : nf c = []) :
    (match_sanctions nf q cands θ).filter (fun m => m.sanctioned_name == c) = [] := by
  rw [List.filter_eq_nil_iff]
  intro m hm hpc
  obtain ⟨s, hmem, hle, hms⟩ := (mem_match_sanctions nf q cands θ m).mp hm
  have hname : m.sanctioned_name = s := by rw [hms]
  have hsc : s = c := by
    rw [← hname]
    exact beq_iff_eq.mp hpc
  rw [hsc, hc, fuzzy_match_nil_right _ hq] at hle
  exact absurd (lt_of_lt_of_le hθ hle) (lt_irrefl 0)

/-- Closed witness for the amended C4 at query "ab" and candidate "ltd". -/
theorem empty_norm_candidate_excluded_witness :
    (match_sanctions normalize_name "ab".toList ["ltd".toList] (3/5)).filter
      (fun m => m.sanctioned_name == "ltd".toList) = [] :=
  empty_norm_candidate_excluded normalize_name "ab".toList ["ltd".toList] (3/5)
    "ltd".toList (by norm_num) (by decide) (by decide)

/-! ### C6: highlighter overlap behaviour -/

instance : IsTotal Str (fun a b : Str => b.length ≤ a.length) :=
  ⟨fun a b => Nat.le_total b.length a.length⟩

instance : IsTrans Str (fun a b : Str => b.length ≤ a.length) :=
  ⟨fun _ _ _ h1 h2 => le_trans h2 h1⟩

/-- C6 counterexample: with keywords {"laundering", "money laundering"} and
text "money laundering scheme", the highlighter does NOT mark "money
laundering" as exactly one span: the later `re.sub` pass for "laundering"
re-marks the inside of the already-inserted span, nesting a second span. -/
theorem highlight_overlap_counterexample :
    color_highlight_terms "money laundering scheme".toList []
        ["laundering".toList, "money laundering".toList] ≠
      redOpen ++ "money laundering".toList ++ spanClose ++ " scheme".toList
    ∧ color_highlight_terms "money laundering scheme".toList []
        ["laundering".toList, "money laundering".toList] =
      redOpen ++ "money ".toList ++ redOpen ++ "laundering".toList
        ++ spanClose ++ spanClose ++ " scheme".toList := by
  constructor
  · decide
  · decide

/-- C6 (amended): the keyword passes do run longest-first (the pass order is
sorted by decreasing keyword length), but a marked span is not protected from
later passes: a shorter keyword contained in an already-marked longer keyword
is re-marked, so the example text acquires a nested inner span around
"laundering" inside the "money laundering" span. -/
theorem highlight_longest_first_nested :
    (∀ kws : List Str, (sortKeywords kws).Sorted (fun a b : Str => b.length ≤ a.length))
    ∧ color_highlight_terms "money laundering scheme".toList []
        ["laundering".toList, "money laundering".toList] =
      redOpen ++ "money ".toList ++ redOpen ++ "laundering".toList
        ++ spanClose ++ spanClose ++ " scheme".toList := by
  constructor
  · intro kws
    unfold sortKeywords
    exact List.sorted_insertionSort _ _
  · decide

/-! ### C7 / C8 groundwork: structure of the normalizer output -/

theorem pyStrip_eq (l : Str) : pyStrip l = List.rdropWhile isWS (l.dropWhile isWS) := rfl

theorem stripPunct_chars (l : Str) (c : Char) (h : c ∈ stripPunct l) :
    keepChar c = true := by
  obtain ⟨x, _, hfx⟩ := List.mem_map.mp h
  by_cases hk : keepChar x = true
  · rw [← hfx, if_pos hk]; exact hk
  · rw [← hfx, if_neg hk]; decide

theorem collapseWS_chars : ∀ (l : Str) (c : Char), c ∈ collapseWS l →
    (c ∈ l ∧ isWS c = false) ∨ c = ' '
  | [], c, h => by simp [collapseWS] at h
  | [x], c, h => by
    simp only [collapseWS] at h
    by_cases hx : isWS x = true
    · rw [if_pos hx] at h
      exact Or.inr (List.mem_singleton.mp h)
    · rw [if_neg hx] at h
      have hcx := List.mem_singleton.mp h
      subst hcx
      simp only [Bool.not_eq_true] at hx
      exact Or.inl ⟨List.mem_singleton.mpr rfl, hx⟩
  | x :: y :: cs, c, h => by
    simp only [collapseWS] at h
    by_cases hxy : (isWS x && isWS y) = true
    · rw [if_pos hxy] at h
      rcases collapseWS_chars (y :: cs) c h with ⟨hm, hws⟩ | hsp
      · exact Or.inl ⟨List.mem_cons_of_mem _ hm, hws⟩
      · exact Or.inr hsp
    · rw [if_neg hxy] at h
      rcases List.mem_cons.mp h with hc | h2
      · by_cases hx : isWS x = true
        · rw [if_pos hx] at hc
          exact Or.inr hc
        · rw [if_neg hx] at hc
          subst hc
          simp only [Bool.not_eq_true] at hx
          exact Or.inl ⟨List.mem_cons_self _ _, hx⟩
      · rcases collapseWS_chars (y :: cs) c h2 with ⟨hm, hws⟩ | hsp
        · exact Or.inl ⟨List.mem_cons_of_mem _ hm, hws⟩
        · exact Or.inr hsp

theorem collapseWS_head : ∀ (y : Char) (cs : Str),
    (collapseWS (y :: cs)).head? = some (if isWS y then ' ' else y)
  | _, [] => rfl
  | y, z :: cs => by
    simp only [collapseWS]
    by_cases h : (isWS y && isWS z) = true
    · rw [if_pos h, collapseWS_head z cs]
      simp only [Bool.and_eq_true] at h
      rw [h.1, h.2]
      simp
    · rw [if_neg h]
      rfl

/-- The output of the whitespace collapse has no two adjacent whitespace
characters. -/
theorem collapseWS_chain : ∀ l : Str,
    List.Chain' (fun a b => ¬(isWS a = true ∧ isWS b = true)) (collapseWS l)
  | [] => List.chain'_nil
  | [x] => List.chain'_singleton _
  | x :: y :: cs => by
    simp only [collapseWS]
    by_cases h : (isWS x && isWS y) = true
    · rw [if_pos h]
      exact collapseWS_chain (y :: cs)
    · rw [if_neg h]
      refine List.chain'_cons'.mpr ⟨?_, collapseWS_chain (y :: cs)⟩
      intro b hb
      rw [collapseWS_head y cs] at hb
      have hb' : b = if isWS y then ' ' else y := (Option.mem_some_iff.mp hb).symm
      rintro ⟨ha, hbws⟩
      by_cases hx : isWS x = true
      · have hy : isWS y = false := by
          cases hy : isWS y
          · rfl
          · exact absurd (by rw [hx, hy]; rfl) h
        rw [hy] at hb'
        simp at hb'
        rw [hb', hy] at hbws
        exact Bool.false_ne_true hbws
      · rw [if_neg hx] at ha
        exact hx ha

theorem chain_no_double_space : ∀ l : Str,
    List.Chain' (fun a b => ¬(isWS a = true ∧ isWS b = true)) l →
    hasSub [' ', ' '] l = false
  | [], _ => rfl
  | [c], _ => by
    simp [hasSub, List.isPrefixOf]
  | a :: b :: cs, h => by
    obtain ⟨hr, hrest⟩ := List.chain'_cons.mp h
    have h2 := chain_no_double_space (b :: cs) hrest
    rw [hasSub, h2, Bool.or_false]
    cases hp : List.isPrefixOf [' ', ' '] (a :: b :: cs)
    · rfl
    · exfalso
      simp only [List.isPrefixOf, Bool.and_eq_true, beq_iff_eq] at hp
      exact hr ⟨by rw [← hp.1]; rfl, by rw [← hp.2.1]; rfl⟩

theorem dropWhile_head_not : ∀ (l : Str) (c : Char),
    (l.dropWhile isWS).head? = some c → isWS c = false
  | [], c, h => by simp [List.dropWhile] at h
  | x :: xs, c, h => by
    rw [List.dropWhile] at h
    cases hx : isWS x with
    | true => rw [hx] at h; exact dropWhile_head_not xs c h
    | false =>
      rw [hx] at h
      have : x = c := by
        simpa using h
      rw [← this]
      exact hx

theorem pyStrip_subset (l : Str) (c : Char) (h : c ∈ pyStrip l) : c ∈ l := by
  rw [pyStrip_eq] at h
  have h1 : c ∈ l.dropWhile isWS :=
    ( List.rdropWhile_prefix isWS _).sublist.subset h
  exact (List.dropWhile_suffix isWS).sublist.subset h1

theorem pyStrip_chain {R : Char → Char → Prop} {l : Str} (h : List.Chain' R l) :
    List.Chain' R (pyStrip l) := by
  rw [pyStrip_eq]
  have h1 : List.Chain' R (l.dropWhile isWS) :=
    List.Chain'.suffix h (List.dropWhile_suffix _)
  exact List.Chain'.prefix h1 ( List.rdropWhile_prefix _ _)

theorem pyStrip_head (l : Str) (c : Char) (h : (pyStrip l).head? = some c) :
    isWS c = false := by
  rw [pyStrip_eq] at h
  obtain ⟨t, ht⟩ := List.rdropWhile_prefix isWS (l.dropWhile isWS)
  apply dropWhile_head_not l c
  rw [← ht, List.head?_append, h]
  rfl

theorem pyStrip_last (l : Str) (c : Char) (h : (pyStrip l).getLast? = some c) :
    isWS c = false := by
  rw [pyStrip_eq, List.rdropWhile] at h
  rw [List.getLast?_reverse] at h
  exact dropWhile_head_not _ c h

/-- The output alphabet stated for the normalizer in spec §4.1: lowercase
ASCII letters, digits, and the space character. -/
def goodChar (c : Char) : Bool :=
  (97 ≤ c.toNat && c.toNat ≤ 122) || (48 ≤ c.toNat && c.toNat ≤ 57) || c == ' '

/-- C7 counterexample: the v8 normalizer (which lacks the
`re.sub(r"[^a-z0-9\s]", " ", n)` step) returns "@" unchanged, so its output
is not restricted to lowercase letters, digits and spaces. -/
theorem normalize_v8_charset_counterexample :
    normalize_name_v8 "@".toList = "@".toList
    ∧ ¬ (∀ c ∈ normalize_name_v8 "@".toList, goodChar c = true) := by
  constructor
  · decide
  · decide

/-- The shape of `pyStrip (collapseWS (stripPunct Y))` for an arbitrary
intermediate string `Y`: characters restricted to lowercase letters, digits
and spaces, no two adjacent spaces, trimmed. -/
theorem normalized_shape_core (Y : Str) :
    (∀ c ∈ pyStrip (collapseWS (stripPunct Y)), goodChar c = true)
    ∧ hasSub [' ', ' '] (pyStrip (collapseWS (stripPunct Y))) = false
    ∧ (∀ c, (pyStrip (collapseWS (stripPunct Y))).head? = some c → c ≠ ' ')
    ∧ (∀ c, (pyStrip (collapseWS (stripPunct Y))).getLast? = some c → c ≠ ' ') := by
  refine ⟨?_, ?_, ?_, ?_⟩
  · intro c hc
    have h1 := pyStrip_subset _ _ hc
    rcases collapseWS_chars _ c h1 with ⟨hm, hnw⟩ | hsp
    · have hk := stripPunct_chars _ c hm
      simp only [keepChar, Bool.or_eq_true] at hk
      simp only [goodChar, Bool.or_eq_true]
      rcases hk with (h | h) | h
      · exact Or.inl (Or.inl h)
      · exact Or.inl (Or.inr h)
      · rw [hnw] at h
        exact absurd h (by simp)
    · rw [hsp]
      decide
  · exact chain_no_double_space _ (pyStrip_chain (collapseWS_chain _))
  · intro c hc hcsp
    have hn := pyStrip_head _ _ hc
    rw [hcsp] at hn
    exact absurd hn (by decide)
  · intro c hc hcsp
    have hn := pyStrip_last _ _ hc
    rw [hcsp] at hn
    exact absurd hn (by decide)

/-- C7 (amended): the v9 normalizer is total and always returns a string over
lowercase letters, digits and spaces, with no two adjacent spaces and no
leading or trailing space; the v8 variant lacks the character strip and can
return other characters (see the counterexample). -/
theorem normalize_v9_output_shape (s : Str) :
    (∀ c ∈ normalize_name s, goodChar c = true)
    ∧ hasSub [' ', ' '] (normalize_name s) = false
    ∧ (∀ c, (normalize_name s).head? = some c → c ≠ ' ')
    ∧ (∀ c, (normalize_name s).getLast? = some c → c ≠ ' ') := by
  by_cases hs : s = []
  · have he : normalize_name s = [] := by rw [normalize_name, if_pos hs]
    rw [he]
    refine ⟨fun c hc => absurd hc (List.not_mem_nil c), rfl, ?_, ?_⟩ <;>
      · intro c h
        simp at h
  · have he : normalize_name s =
        pyStrip (collapseWS (stripPunct (applyTokens remove_tokens9 (lowerStr s)))) := by
      rw [normalize_name, if_neg hs]
    rw [he]
    exact normalized_shape_core (applyTokens remove_tokens9 (lowerStr s))

/-- Closed witness for the amended C7 on a concrete input. -/
theorem normalize_v9_output_shape_witness :
    normalize_name "ACME, Ltd.".toList = "acme".toList
    ∧ hasSub [' ', ' '] (normalize_name "ACME, Ltd.".toList) = false :=
  ⟨by decide, (normalize_v9_output_shape "ACME, Ltd.".toList).2.1⟩

/-! ### C9: behaviour on empty / whitespace-only query names -/

/-- C9 counterexample: (a) in v9, an empty query name aborts the ENTIRE
search — the news classification stage does not run even though the batch
would produce a negative article; (b) in v8, a whitespace-only name does NOT
skip the sanctions stage (Python truthiness only catches the empty string):
the whitespace name fuzzy-matches a candidate that normalizes to empty and a
sanctions row is emitted. -/
theorem empty_name_counterexample :
    (search_all_v9 [] [Article.mk "t".toList "fraud".toList [] [] []] []
        (fun _ => .ok ("negative".toList, 0.9)) "ProsusAI/finbert".toList false = []
      ∧ processArticle_v9 "ProsusAI/finbert".toList false
          (fun _ => .ok ("negative".toList, 0.9))
          (Article.mk "t".toList "fraud".toList [] [] []) ≠ none)
    ∧ search_all_v8 "  ".toList [] ["ltd".toList]
        (fun _ => .ok ("negative".toList, 0.9)) "ProsusAI/finbert".toList false ≠ [] := by
  refine ⟨⟨rfl, by decide⟩, ?_⟩
  have hn8a : normalize_name_v8 "  ".toList = [] := by decide
  have hn8b : normalize_name_v8 "ltd".toList = [] := by decide
  have hfm : fuzzy_match (normalize_name_v8 "  ".toList)
      (normalize_name_v8 "ltd".toList) = 1 := by
    rw [hn8a, hn8b]; rfl
  have hle : (3/5 : ℚ) ≤ fuzzy_match (normalize_name_v8 "  ".toList)
      (normalize_name_v8 "ltd".toList) := by
    rw [hfm]; norm_num
  have hr : round2 (fuzzy_match (normalize_name_v8 "  ".toList)
      (normalize_name_v8 "ltd".toList)) = 1 := by
    rw [hfm]
    norm_num [round2, roundHalfEven]
  have hms : match_sanctions normalize_name_v8 "  ".toList ["ltd".toList] (3/5) =
      [⟨"ltd".toList, 1⟩] := by
    unfold match_sanctions sortMatches
    simp only [List.filterMap_cons, List.filterMap_nil, if_pos hle, hr]
    rfl
  unfold search_all_v8
  rw [hms, if_pos (show "  ".toList ≠ ([] : Str) by decide)]
  simp

/-- C9 (amended): in v8, an EMPTY query name skips the sanctions-matching
stage while news classification still executes; a whitespace-only name is not
treated as empty there.  In v9, an empty or whitespace-only query name makes
the whole search return the empty list — news classification included. -/
theorem empty_name_stage_skipping :
    (∀ (articles : List Article) (sancts : List Str)
        (cls : Str → Except Unit (Str × ℚ)) (mc : Str) (hs : Bool),
      search_all_v8 [] articles sancts cls mc hs =
        articles.filterMap (processNewsArticle mc hs cls))
    ∧ (∀ (name : Str) (articles : List Article) (sancts : List Str)
        (cls : Str → Except Unit (Str × ℚ)) (mc : Str) (hs : Bool),
        pyStrip name = [] →
        search_all_v9 name articles sancts cls mc hs = []) := by
  constructor
  · intro articles sancts cls mc hs
    unfold search_all_v8
    rw [if_neg (by simp)]
    rfl
  · intro name articles sancts cls mc hs h
    unfold search_all_v9
    rw [if_pos (by simp [h])]

/-- Closed witness for the amended C9. -/
theorem empty_name_stage_skipping_witness :
    search_all_v8 [] [] [] (fun _ => .error ()) [] false = []
    ∧ search_all_v9 " ".toList [] [] (fun _ => .error ()) [] false = [] :=
  ⟨by rw [empty_name_stage_skipping.1]; rfl,
   empty_name_stage_skipping.2 " ".toList [] [] (fun _ => .error ()) [] false (by decide)⟩

/-! ### C10: shape and persistence of sanctions-derived result rows -/

/-- C10: every sanctions-derived row in the merged v8 result list carries
severity "High", model label "SANCTIONS_MATCH", empty date and empty url, a
title naming the matched candidate, and a score equal to the candidate's
two-decimal-rounded similarity; the row is built without consulting the
sentiment classifier, and it appears in the `search_all` output even with the
high-severity-only flag on, for every classifier. -/
theorem sanctions_rows_shape :
    ∀ (name : Str) (sancts : List Str) (r : RItem),
      r ∈ (match_sanctions normalize_name_v8 name sancts (3/5)).map sanctionsRow →
      (r.severity = "High".toList ∧ r.model_label = "SANCTIONS_MATCH".toList
        ∧ r.date = [] ∧ r.url = []
        ∧ (∃ s ∈ sancts,
            r.title = "Sanctions match: ".toList ++ s
            ∧ r.score = round2 (fuzzy_match (normalize_name_v8 name)
                (normalize_name_v8 s))))
      ∧ (∀ (articles : List Article) (cls : Str → Except Unit (Str × ℚ)) (mc : Str),
          name ≠ [] → r ∈ search_all_v8 name articles sancts cls mc true) := by
  intro name sancts r hr
  obtain ⟨m, hm, hrm⟩ := List.mem_map.mp hr
  obtain ⟨s, hs, _, hms⟩ := (mem_match_sanctions _ _ _ _ m).mp hm
  constructor
  · subst hrm
    rw [hms]
    exact ⟨rfl, rfl, rfl, rfl, ⟨s, hs, rfl, rfl⟩⟩
  · intro articles cls mc hname
    unfold search_all_v8
    rw [if_pos hname]
    exact List.mem_append_left _ hr

/-- Closed witness for C10: the query "x" against the one-candidate list
["x"] produces the full-score sanctions row, present in the output with the
high-severity flag on and an error-raising classifier. -/
theorem sanctions_rows_shape_witness :
    (sanctionsRow ⟨"x".toList, 1⟩).severity = "High".toList
    ∧ sanctionsRow ⟨"x".toList, 1⟩ ∈
        search_all_v8 "x".toList [] ["x".toList] (fun _ => .error ()) [] true := by
  have hl : "x".toList.length = 1 := rfl
  have hm : matchedTotal "x".toList "x".toList (1 + 1) 0 1 0 1 = 1 := by decide
  have hfm : fuzzy_match "x".toList "x".toList = 1 := by
    unfold fuzzy_match
    rw [hl, hm]
    norm_num
  have hn : normalize_name_v8 "x".toList = "x".toList := by decide
  have hfm' : fuzzy_match (normalize_name_v8 "x".toList)
      (normalize_name_v8 "x".toList) = 1 := by rw [hn]; exact hfm
  have hle : (3/5 : ℚ) ≤ fuzzy_match (normalize_name_v8 "x".toList)
      (normalize_name_v8 "x".toList) := by rw [hfm']; norm_num
  have hr : round2 (fuzzy_match (normalize_name_v8 "x".toList)
      (normalize_name_v8 "x".toList)) = 1 := by
    rw [hfm']
    norm_num [round2, roundHalfEven]
  have hms : match_sanctions normalize_name_v8 "x".toList ["x".toList] (3/5) =
      [⟨"x".toList, 1⟩] := by
    unfold match_sanctions sortMatches
    simp only [List.filterMap_cons, List.filterMap_nil, if_pos hle, hr]
    rfl
  have hmem : sanctionsRow ⟨"x".toList, 1⟩ ∈
      (match_sanctions normalize_name_v8 "x".toList ["x".toList] (3/5)).map sanctionsRow := by
    rw [hms]
    simp
  have h := sanctions_rows_shape "x".toList ["x".toList] (sanctionsRow ⟨"x".toList, 1⟩) hmem
  exact ⟨h.1.1, h.2 [] (fun _ => .error ()) [] (by decide)⟩

/-! ### C8 groundwork: substring occurrence utilities -/

theorem hasSub_nil_left : ∀ l : Str, hasSub [] l = true
  | [] => rfl
  | _ :: _ => by rw [hasSub]; rfl

theorem isPrefixOf_append_ext : ∀ (u l z : Str), u.isPrefixOf l = true →
    u.isPrefixOf (l ++ z) = true
  | [], l, z, _ => by cases l <;> cases z <;> rfl
  | a :: u, [], z, h => by simp [List.isPrefixOf] at h
  | a :: u, b :: l, z, h => by
    simp only [List.isPrefixOf, Bool.and_eq_true] at h ⊢
    exact ⟨h.1, isPrefixOf_append_ext u l z h.2⟩

theorem hasSub_append_ext : ∀ (u l z : Str), hasSub u l = true →
    hasSub u (l ++ z) = true
  | u, [], z, h => by
    have : u = [] := by
      rw [hasSub] at h
      exact List.isEmpty_iff.mp h
    rw [this]
    exact hasSub_nil_left z
  | u, c :: cs, z, h => by
    rw [hasSub, Bool.or_eq_true] at h
    rw [List.cons_append, hasSub, Bool.or_eq_true]
    rcases h with h | h
    · exact Or.inl (isPrefixOf_append_ext u (c :: cs) z h)
    · exact Or.inr (hasSub_append_ext u cs z h)

theorem hasSub_append_right : ∀ (u x y : Str), hasSub u y = true →
    hasSub u (x ++ y) = true
  | u, [], y, h => h
  | u, c :: cs, y, h => by
    rw [List.cons_append, hasSub, Bool.or_eq_true]
    exact Or.inr (hasSub_append_right u cs y h)

theorem hasSub_of_pre : ∀ {u l : Str}, u.isPrefixOf l = true → hasSub u l = true := by
  intro u l h
  cases l with
  | nil =>
    cases u with
    | nil => rfl
    | cons a as => simp [List.isPrefixOf] at h
  | cons c cs =>
    rw [hasSub, Bool.or_eq_true]
    exact Or.inl h

theorem hasSub_cons_of {u : Str} (c : Char) {cs : Str} (h : hasSub u cs = true) :
    hasSub u (c :: cs) = true := by
  rw [hasSub, Bool.or_eq_true]
  exact Or.inr h

theorem hasSub_drop : ∀ (n : Nat) (l u : Str), hasSub u (l.drop n) = true →
    hasSub u l = true
  | 0, l, u, h => h
  | n+1, [], u, h => h
  | n+1, c :: cs, u, h => by
    rw [List.drop_succ_cons] at h
    exact hasSub_cons_of c (hasSub_drop n cs u h)

theorem hasSub_trans : ∀ {v u : Str} (l : Str), hasSub v u = true →
    hasSub u l = true → hasSub v l = true := by
  intro v u l hv hu
  induction l with
  | nil =>
    rw [hasSub, List.isEmpty_iff] at hu
    subst hu
    rw [hasSub, List.isEmpty_iff] at hv
    subst hv
    rfl
  | cons c cs ih =>
    rw [hasSub, Bool.or_eq_true] at hu
    rcases hu with hu | hu
    · obtain ⟨t, ht⟩ := List.isPrefixOf_iff_prefix.mp hu
      rw [← ht]
      exact hasSub_append_ext v u t hv
    · exact hasSub_cons_of c (ih hu)

theorem isPrefixOf_mem : ∀ {u l : Str}, u.isPrefixOf l = true → ∀ c ∈ u, c ∈ l
  | [], _, _, c, hc => absurd hc (List.not_mem_nil c)
  | a :: u, [], h, _, _ => by simp [List.isPrefixOf] at h
  | a :: u, b :: l, h, c, hc => by
    simp only [List.isPrefixOf, Bool.and_eq_true, beq_iff_eq] at h
    rcases List.mem_cons.mp hc with hca | hcm
    · rw [hca, h.1]
      exact List.mem_cons_self _ _
    · exact List.mem_cons_of_mem _ (isPrefixOf_mem h.2 c hcm)

theorem hasSub_mem : ∀ (l u : Str), hasSub u l = true → ∀ c ∈ u, c ∈ l
  | [], u, h, c, hc => by
    rw [hasSub, List.isEmpty_iff] at h
    subst h
    exact absurd hc (List.not_mem_nil c)
  | x :: xs, u, h, c, hc => by
    rw [hasSub, Bool.or_eq_true] at h
    rcases h with h | h
    · exact isPrefixOf_mem h c hc
    · exact List.mem_cons_of_mem _ (hasSub_mem xs u h c hc)

/-- A whitespace-free prefix of a `replace` output is a prefix of the input:
replacements only insert spaces. -/
theorem isPrefixOf_replaceAllGo (t : Str) : ∀ (fuel : Nat) (l u : Str),
    (∀ c ∈ u, isWS c = false) → u.isPrefixOf (replaceAllGo t fuel l) = true →
    u.isPrefixOf l = true
  | fuel, [], u, _, h => by
    cases fuel <;> exact h
  | 0, c :: cs, u, _, h => h
  | fuel+1, c :: cs, u, hws, h => by
    rw [replaceAllGo] at h
    by_cases hp : t.isPrefixOf (c :: cs) = true
    · rw [if_pos hp] at h
      cases u with
      | nil => rfl
      | cons a as =>
        simp only [List.isPrefixOf, Bool.and_eq_true, beq_iff_eq] at h
        have := hws a (List.mem_cons_self _ _)
        rw [h.1] at this
        exact absurd this (by decide)
    · rw [if_neg hp] at h
      cases u with
      | nil => rfl
      | cons a as =>
        simp only [List.isPrefixOf, Bool.and_eq_true] at h ⊢
        exact ⟨h.1, isPrefixOf_replaceAllGo t fuel cs as
          (fun x hx => hws x (List.mem_cons_of_mem _ hx)) h.2⟩

/-- A whitespace-free substring of a `replace` output occurs in the input. -/
theorem hasSub_replaceAllGo (t : Str) : ∀ (fuel : Nat) (l u : Str),
    (∀ c ∈ u, isWS c = false) → hasSub u (replaceAllGo t fuel l) = true →
    hasSub u l = true
  | fuel, [], u, _, h => by
    cases fuel <;> exact h
  | 0, c :: cs, u, _, h => h
  | fuel+1, c :: cs, u, hws, h => by
    rw [replaceAllGo] at h
    by_cases hp : t.isPrefixOf (c :: cs) = true
    · rw [if_pos hp] at h
      rw [hasSub, Bool.or_eq_true] at h
      rcases h with h | h
      · cases u with
        | nil => exact hasSub_nil_left _
        | cons a as =>
          simp only [List.isPrefixOf, Bool.and_eq_true, beq_iff_eq] at h
          have := hws a (List.mem_cons_self _ _)
          rw [h.1] at this
          exact absurd this (by decide)
      · have h2 := hasSub_replaceAllGo t fuel (cs.drop (t.length - 1)) u hws h
        exact hasSub_cons_of c (hasSub_drop _ _ _ h2)
    · rw [if_neg hp] at h
      rw [hasSub, Bool.or_eq_true] at h
      rw [hasSub, Bool.or_eq_true]
      rcases h with h | h
      · cases u with
        | nil => exact Or.inl rfl
        | cons a as =>
          simp only [List.isPrefixOf, Bool.and_eq_true] at h ⊢
          exact Or.inl ⟨h.1, isPrefixOf_replaceAllGo t fuel cs as
            (fun x hx => hws x (List.mem_cons_of_mem _ hx)) h.2⟩
      · exact Or.inr (hasSub_replaceAllGo t fuel cs u hws h)

/-- After `replace`, the replaced (whitespace-free, non-empty) token no longer
occurs. -/
theorem hasSub_replaceAllGo_self (t : Str) (hne : t ≠ [])
    (hws : ∀ c ∈ t, isWS c = false) : ∀ (fuel : Nat) (l : Str),
    l.length ≤ fuel → hasSub t (replaceAllGo t fuel l) = false
  | fuel, [], _ => by
    cases fuel <;>
      · show hasSub t [] = false
        rw [hasSub]
        cases t with
        | nil => exact absurd rfl hne
        | cons a as => rfl
  | 0, c :: cs, hlen => by
    exfalso
    simp at hlen
  | fuel+1, c :: cs, hlen => by
    rw [replaceAllGo]
    by_cases hp : t.isPrefixOf (c :: cs) = true
    · rw [if_pos hp]
      rw [hasSub]
      have hpre : t.isPrefixOf (' ' :: replaceAllGo t fuel (cs.drop (t.length - 1))) = false := by
        cases t with
        | nil => exact absurd rfl hne
        | cons a as =>
          have ha := hws a (List.mem_cons_self _ _)
          simp only [List.isPrefixOf, Bool.and_eq_false_iff]
          left
          cases hab : (a == ' ') with
          | false => rfl
          | true =>
            exfalso
            rw [beq_iff_eq.mp hab] at ha
            exact absurd ha (by decide)
      rw [hpre]
      have hrec := hasSub_replaceAllGo_self t hne hws fuel (cs.drop (t.length - 1))
        (by
          have := List.length_drop (t.length - 1) cs
          simp only [List.length_cons] at hlen
          omega)
      rw [hrec]
      rfl
    · rw [if_neg hp]
      rw [hasSub]
      have hrec := hasSub_replaceAllGo_self t hne hws fuel cs
        (by simp only [List.length_cons] at hlen; omega)
      rw [hrec, Bool.or_false]
      cases hb : t.isPrefixOf (c :: replaceAllGo t fuel cs) with
      | false => rfl
      | true =>
        exfalso
        apply hp
        cases t with
        | nil => exact absurd rfl hne
        | cons a as =>
          simp only [List.isPrefixOf, Bool.and_eq_true] at hb ⊢
          exact ⟨hb.1, isPrefixOf_replaceAllGo (a :: as) fuel cs as
            (fun x hx => hws x (List.mem_cons_of_mem _ hx)) hb.2⟩

/-- Occurrence monotonicity for `replaceAll`: a whitespace-free substring of
the output occurs in the input. -/
theorem hasSub_replaceAll (t l u : Str) (hws : ∀ c ∈ u, isWS c = false)
    (h : hasSub u (replaceAll t l) = true) : hasSub u l = true := by
  unfold replaceAll at h
  by_cases ht : t.isEmpty
  · rwa [if_pos ht] at h
  · rw [if_neg ht] at h
    exact hasSub_replaceAllGo t l.length l u hws h

/-- After `replaceAll t`, the token `t` (non-empty, whitespace-free) no longer
occurs. -/
theorem hasSub_replaceAll_self (t l : Str) (hne : t ≠ [])
    (hws : ∀ c ∈ t, isWS c = false) : hasSub t (replaceAll t l) = false := by
  unfold replaceAll
  rw [if_neg (by simpa [List.isEmpty_iff] using hne)]
  exact hasSub_replaceAllGo_self t hne hws l.length l (le_refl _)

theorem applyTokens_cons (t : Str) (ts : List Str) (l : Str) :
    applyTokens (t :: ts) l = applyTokens ts (replaceAll t l) := rfl

/-- Occurrence monotonicity through a whole token pass. -/
theorem hasSub_applyTokens (ts : List Str) (l u : Str)
    (hws : ∀ c ∈ u, isWS c = false)
    (h : hasSub u (applyTokens ts l) = true) : hasSub u l = true := by
  induction ts generalizing l with
  | nil => exact h
  | cons t ts ih =>
    rw [applyTokens_cons] at h
    exact hasSub_replaceAll t l u hws (ih _ h)

/-- A non-empty whitespace-free token that is in the token list does not
occur in the output of the token pass. -/
theorem hasSub_applyTokens_self (ts : List Str) (l t : Str) (hmem : t ∈ ts)
    (hne : t ≠ []) (hws : ∀ c ∈ t, isWS c = false) :
    hasSub t (applyTokens ts l) = false := by
  obtain ⟨p, q, hpq⟩ := List.append_of_mem hmem
  subst hpq
  rw [show p ++ t :: q = (p ++ [t]) ++ q by simp, applyTokens,
    List.foldl_append, List.foldl_append]
  cases hq : hasSub t (List.foldl (fun acc t => replaceAll t acc)
      (List.foldl (fun acc t => replaceAll t acc)
        (List.foldl (fun acc t => replaceAll t acc) l p) [t]) q) with
  | false => rfl
  | true =>
    exfalso
    have h1 := hasSub_applyTokens q _ t hws hq
    rw [show List.foldl (fun acc t => replaceAll t acc)
        (List.foldl (fun acc t => replaceAll t acc) l p) [t] =
      replaceAll t (applyTokens p l) from rfl] at h1
    rw [hasSub_replaceAll_self t (applyTokens p l) hne hws] at h1
    exact Bool.false_ne_true h1

/-- A prefix made of lowercase letters of the punctuation-strip output is a
prefix of its input (the map only fixes letters or produces spaces). -/
theorem isPrefixOf_stripPunct : ∀ (l u : Str),
    (∀ c ∈ u, 97 ≤ c.toNat ∧ c.toNat ≤ 122) →
    u.isPrefixOf (stripPunct l) = true → u.isPrefixOf l = true
  | [], u, _, h => h
  | c :: cs, [], _, _ => rfl
  | c :: cs, a :: as, haz, h => by
    rw [show stripPunct (c :: cs) =
      (if keepChar c then c else ' ') :: stripPunct cs from rfl] at h
    simp only [List.isPrefixOf, Bool.and_eq_true, beq_iff_eq] at h ⊢
    have hac : a = c := by
      by_cases hk : keepChar c = true
      · rw [if_pos hk] at h
        exact h.1
      · rw [if_neg hk] at h
        exfalso
        have := (haz a (List.mem_cons_self _ _)).1
        rw [h.1] at this
        exact absurd this (by decide)
    exact ⟨hac, isPrefixOf_stripPunct cs as
      (fun x hx => haz x (List.mem_cons_of_mem _ hx)) h.2⟩

/-- A lowercase-letter substring of the punctuation-strip output occurs in
its input. -/
theorem hasSub_stripPunct : ∀ (l u : Str),
    (∀ c ∈ u, 97 ≤ c.toNat ∧ c.toNat ≤ 122) →
    hasSub u (stripPunct l) = true → hasSub u l = true
  | [], u, _, h => h
  | c :: cs, u, haz, h => by
    rw [show stripPunct (c :: cs) =
      (if keepChar c then c else ' ') :: stripPunct cs from rfl, hasSub,
      Bool.or_eq_true] at h
    rw [hasSub, Bool.or_eq_true]
    rcases h with h | h
    · exact Or.inl (isPrefixOf_stripPunct (c :: cs) u haz
        (by rw [show stripPunct (c :: cs) =
          (if keepChar c then c else ' ') :: stripPunct cs from rfl]; exact h))
    · exact Or.inr (hasSub_stripPunct cs u haz h)

/-- A whitespace-free prefix of the whitespace-collapse output is a prefix of
its input. -/
theorem isPrefixOf_collapseWS : ∀ (l u : Str), (∀ c ∈ u, isWS c = false) →
    u.isPrefixOf (collapseWS l) = true → u.isPrefixOf l = true
  | [], u, _, h => h
  | [x], u, hws, h => by
    simp only [collapseWS] at h
    cases u with
    | nil => rfl
    | cons a as =>
      simp only [List.isPrefixOf, Bool.and_eq_true, beq_iff_eq] at h ⊢
      have hax : a = x := by
        by_cases hx : isWS x = true
        · rw [if_pos hx] at h
          exfalso
          have := hws a (List.mem_cons_self _ _)
          rw [h.1] at this
          exact absurd this (by decide)
        · rw [if_neg hx] at h
          exact h.1
      refine ⟨hax, ?_⟩
      have := h.2
      cases as with
      | nil => rfl
      | cons b bs => simp [List.isPrefixOf] at this
  | x :: y :: cs, u, hws, h => by
    simp only [collapseWS] at h
    by_cases hxy : (isWS x && isWS y) = true
    · rw [if_pos hxy] at h
      have h2 := isPrefixOf_collapseWS (y :: cs) u hws h
      cases u with
      | nil => rfl
      | cons a as =>
        exfalso
        simp only [List.isPrefixOf, Bool.and_eq_true, beq_iff_eq] at h2
        have hna := hws a (List.mem_cons_self _ _)
        rw [h2.1] at hna
        simp only [Bool.and_eq_true] at hxy
        rw [hxy.2] at hna
        exact absurd hna (by decide)
    · rw [if_neg hxy] at h
      cases u with
      | nil => rfl
      | cons a as =>
        simp only [List.isPrefixOf, Bool.and_eq_true, beq_iff_eq] at h ⊢
        have hax : a = x := by
          by_cases hx : isWS x = true
          · rw [if_pos hx] at h
            exfalso
            have := hws a (List.mem_cons_self _ _)
            rw [h.1] at this
            exact absurd this (by decide)
          · rw [if_neg hx] at h
            exact h.1
        exact ⟨hax, isPrefixOf_collapseWS (y :: cs) as
          (fun c hc => hws c (List.mem_cons_of_mem _ hc)) h.2⟩

/-- A whitespace-free substring of the whitespace-collapse output occurs in
its input. -/
theorem hasSub_collapseWS : ∀ (l u : Str), (∀ c ∈ u, isWS c = false) →
    hasSub u (collapseWS l) = true → hasSub u l = true
  | [], u, _, h => h
  | [x], u, hws, h => by
    rw [show collapseWS [x] = [if isWS x then ' ' else x] from rfl, hasSub,
      Bool.or_eq_true] at h
    rw [hasSub, Bool.or_eq_true]
    rcases h with h | h
    · exact Or.inl (isPrefixOf_collapseWS [x] u hws
        (by rw [show collapseWS [x] = [if isWS x then ' ' else x] from rfl]; exact h))
    · exact Or.inr h
  | x :: y :: cs, u, hws, h => by
    simp only [collapseWS] at h
    by_cases hxy : (isWS x && isWS y) = true
    · rw [if_pos hxy] at h
      exact hasSub_cons_of _ (hasSub_collapseWS (y :: cs) u hws h)
    · rw [if_neg hxy] at h
      rw [hasSub, Bool.or_eq_true] at h
      rw [hasSub, Bool.or_eq_true]
      rcases h with h | h
      · refine Or.inl (isPrefixOf_collapseWS (x :: y :: cs) u hws ?_)
        simp only [collapseWS]
        rw [if_neg hxy]
        exact h
      · exact Or.inr (hasSub_collapseWS (y :: cs) u hws h)

/-- A substring of the stripped string occurs in the original. -/
theorem hasSub_pyStrip (l u : Str) (h : hasSub u (pyStrip l) = true) :
    hasSub u l = true := by
  rw [pyStrip_eq] at h
  obtain ⟨s1, hs1⟩ := List.rdropWhile_prefix isWS (l.dropWhile isWS)
  obtain ⟨p1, hp1⟩ := List.dropWhile_suffix (l := l) isWS
  have h1 : hasSub u (l.dropWhile isWS) = true := by
    rw [← hs1]
    exact hasSub_append_ext u _ s1 h
  rw [← hp1]
  exact hasSub_append_right u p1 _ h1

/-! ### C8 groundwork: identity of a second normalization pass -/

theorem map_id_of : ∀ (f : Char → Char) (l : Str), (∀ c ∈ l, f c = c) →
    l.map f = l
  | _, [], _ => rfl
  | f, c :: cs, h => by
    rw [List.map_cons, h c (List.mem_cons_self _ _),
      map_id_of f cs (fun x hx => h x (List.mem_cons_of_mem _ hx))]

theorem toNat_ofNatAux (n : ℕ) (h : n.isValidChar) : (Char.ofNatAux n h).toNat = n := rfl

theorem lowerChar_toNat (c : Char) :
    (lowerChar c).toNat = if 65 ≤ c.toNat ∧ c.toNat ≤ 90 then c.toNat + 32 else c.toNat := by
  unfold lowerChar
  by_cases h : 65 ≤ c.toNat ∧ c.toNat ≤ 90
  · rw [dif_pos h, if_pos h, toNat_ofNatAux]
  · rw [dif_neg h, if_neg h]

theorem lowerChar_fix (c : Char) (h : ¬(65 ≤ c.toNat ∧ c.toNat ≤ 90)) :
    lowerChar c = c := dif_neg h

theorem lowerChar_idem (c : Char) : lowerChar (lowerChar c) = lowerChar c := by
  apply lowerChar_fix
  rw [lowerChar_toNat]
  by_cases h : 65 ≤ c.toNat ∧ c.toNat ≤ 90
  · rw [if_pos h]
    omega
  · rw [if_neg h]
    exact h

/-- The six whitespace characters of `isWS`, by code point. -/
theorem ws_char_vals (c : Char) (h : isWS c = true) :
    c.toNat = 32 ∨ c.toNat = 9 ∨ c.toNat = 10 ∨ c.toNat = 13 ∨ c.toNat = 11
      ∨ c.toNat = 12 := by
  simp only [isWS, Bool.or_eq_true, beq_iff_eq] at h
  rcases h with ((((h | h) | h) | h) | h) | h <;> subst h <;> simp

theorem az_not_ws (c : Char) (h : 97 ≤ c.toNat ∧ c.toNat ≤ 122) :
    isWS c = false := by
  cases hw : isWS c with
  | false => rfl
  | true =>
    exfalso
    rcases ws_char_vals c hw with h1 | h1 | h1 | h1 | h1 | h1 <;> omega

theorem goodChar_not_upper (c : Char) (h : goodChar c = true) :
    ¬(65 ≤ c.toNat ∧ c.toNat ≤ 90) := by
  simp only [goodChar, Bool.or_eq_true, Bool.and_eq_true, decide_eq_true_eq,
    beq_iff_eq] at h
  rcases h with (⟨h1, h2⟩ | ⟨h1, h2⟩) | h
  · omega
  · omega
  · subst h
    decide

theorem goodChar_keep (c : Char) (h : goodChar c = true) : keepChar c = true := by
  simp only [goodChar, Bool.or_eq_true, Bool.and_eq_true, decide_eq_true_eq,
    beq_iff_eq] at h
  simp only [keepChar, Bool.or_eq_true, Bool.and_eq_true, decide_eq_true_eq]
  rcases h with (⟨h1, h2⟩ | ⟨h1, h2⟩) | h
  · exact Or.inl (Or.inl ⟨h1, h2⟩)
  · exact Or.inl (Or.inr ⟨h1, h2⟩)
  · subst h
    exact Or.inr (by decide)

theorem goodChar_ws_space (c : Char) (hg : goodChar c = true)
    (hw : isWS c = true) : c = ' ' := by
  simp only [goodChar, Bool.or_eq_true, Bool.and_eq_true, decide_eq_true_eq,
    beq_iff_eq] at hg
  rcases hg with (⟨h1, h2⟩ | ⟨h1, h2⟩) | h
  · exact absurd hw (by rw [az_not_ws c ⟨h1, h2⟩]; decide)
  · exfalso
    rcases ws_char_vals c hw with h3 | h3 | h3 | h3 | h3 | h3 <;> omega
  · exact h

theorem replaceAllGo_id (t : Str) : ∀ (fuel : Nat) (l : Str),
    hasSub t l = false → replaceAllGo t fuel l = l
  | fuel, [], _ => by cases fuel <;> rfl
  | 0, c :: cs, _ => rfl
  | fuel+1, c :: cs, h => by
    rw [hasSub, Bool.or_eq_false_iff] at h
    rw [replaceAllGo, if_neg (by rw [h.1]; exact Bool.false_ne_true),
      replaceAllGo_id t fuel cs h.2]

theorem replaceAll_id (t l : Str) (h : hasSub t l = false) : replaceAll t l = l := by
  unfold replaceAll
  by_cases ht : t.isEmpty
  · rw [if_pos ht]
  · rw [if_neg ht]
    exact replaceAllGo_id t l.length l h

theorem applyTokens_id (ts : List Str) (l : Str)
    (h : ∀ t ∈ ts, hasSub t l = false) : applyTokens ts l = l := by
  induction ts with
  | nil => rfl
  | cons t ts ih =>
    rw [applyTokens_cons, replaceAll_id t l (h t (List.mem_cons_self _ _)),
      ih (fun x hx => h x (List.mem_cons_of_mem _ hx))]

theorem stripPunct_id (l : Str) (h : ∀ c ∈ l, keepChar c = true) :
    stripPunct l = l :=
  map_id_of _ l (fun c hc => if_pos (h c hc))

theorem collapseWS_id : ∀ l : Str,
    List.Chain' (fun a b => ¬(isWS a = true ∧ isWS b = true)) l →
    (∀ c ∈ l, isWS c = true → c = ' ') → collapseWS l = l
  | [], _, _ => rfl
  | [x], _, hws => by
    simp only [collapseWS]
    by_cases hx : isWS x = true
    · rw [if_pos hx, hws x (List.mem_singleton.mpr rfl) hx]
    · rw [if_neg hx]
  | x :: y :: cs, hch, hws => by
    simp only [collapseWS]
    obtain ⟨hr, hrest⟩ := List.chain'_cons.mp hch
    have hxy : ¬ ((isWS x && isWS y) = true) := by
      intro hc
      simp only [Bool.and_eq_true] at hc
      exact hr hc
    rw [if_neg hxy,
      collapseWS_id (y :: cs) hrest (fun c hc h => hws c (List.mem_cons_of_mem _ hc) h)]
    by_cases hx : isWS x = true
    · rw [if_pos hx, hws x (List.mem_cons_self _ _) hx]
    · rw [if_neg hx]

theorem pyStrip_id (l : Str) (hh : ∀ c, l.head? = some c → isWS c = false)
    (hl : ∀ c, l.getLast? = some c → isWS c = false) : pyStrip l = l := by
  rw [pyStrip_eq]
  have h1 : l.dropWhile isWS = l := by
    cases l with
    | nil => rfl
    | cons x xs =>
      have hx := hh x rfl
      simp [List.dropWhile, hx]
  rw [h1, List.rdropWhile_eq_self_iff]
  intro hne
  rw [hl (l.getLast hne) (List.getLast?_eq_getLast l hne)]
  exact Bool.false_ne_true

/-- Characters of `replaceAll` output come from the input or are spaces. -/
theorem mem_replaceAllGo (t : Str) : ∀ (fuel : Nat) (l : Str) (c : Char),
    c ∈ replaceAllGo t fuel l → c ∈ l ∨ c = ' '
  | fuel, [], c, h => by cases fuel <;> exact absurd h (List.not_mem_nil c)
  | 0, x :: xs, c, h => Or.inl h
  | fuel+1, x :: xs, c, h => by
    rw [replaceAllGo] at h
    by_cases hp : t.isPrefixOf (x :: xs) = true
    · rw [if_pos hp] at h
      rcases List.mem_cons.mp h with hc | hc
      · exact Or.inr hc
      · rcases mem_replaceAllGo t fuel _ c hc with hm | hsp
        · exact Or.inl (List.mem_cons_of_mem _ ((List.drop_subset _ _) hm))
        · exact Or.inr hsp
    · rw [if_neg hp] at h
      rcases List.mem_cons.mp h with hc | hc
      · exact Or.inl (by rw [hc]; exact List.mem_cons_self _ _)
      · rcases mem_replaceAllGo t fuel xs c hc with hm | hsp
        · exact Or.inl (List.mem_cons_of_mem _ hm)
        · exact Or.inr hsp

theorem mem_replaceAll (t l : Str) (c : Char) (h : c ∈ replaceAll t l) :
    c ∈ l ∨ c = ' ' := by
  unfold replaceAll at h
  by_cases ht : t.isEmpty
  · rw [if_pos ht] at h
    exact Or.inl h
  · rw [if_neg ht] at h
    exact mem_replaceAllGo t l.length l c h

theorem mem_applyTokens (ts : List Str) (l : Str) (c : Char)
    (h : c ∈ applyTokens ts l) : c ∈ l ∨ c = ' ' := by
  induction ts generalizing l with
  | nil => exact Or.inl h
  | cons t ts ih =>
    rw [applyTokens_cons] at h
    rcases ih _ h with hm | hsp
    · exact mem_replaceAll t l c hm
    · exact Or.inr hsp

/-- Chain for v9: a lowercase-letter token absent from the token-pass output
does not occur in the final normalized string. -/
theorem hasSub_norm9_core_false (Z t : Str)
    (haz : ∀ c ∈ t, 97 ≤ c.toNat ∧ c.toNat ≤ 122)
    (hfree : hasSub t Z = false) :
    hasSub t (pyStrip (collapseWS (stripPunct Z))) = false := by
  cases h : hasSub t (pyStrip (collapseWS (stripPunct Z))) with
  | false => rfl
  | true =>
    exfalso
    have hws : ∀ c ∈ t, isWS c = false := fun c hc => az_not_ws c (haz c hc)
    have h1 := hasSub_pyStrip _ _ h
    have h2 := hasSub_collapseWS _ _ hws h1
    have h3 := hasSub_stripPunct _ _ haz h2
    rw [hfree] at h3
    exact Bool.false_ne_true h3

/-- A lowercase-letter token of the v9 removal list never occurs in the v9
normalized output. -/
theorem token_free_letters9 (s t : Str) (hmem : t ∈ remove_tokens9) (hne : t ≠ [])
    (haz : ∀ c ∈ t, 97 ≤ c.toNat ∧ c.toNat ≤ 122) :
    hasSub t (normalize_name s) = false := by
  by_cases hs : s = []
  · rw [normalize_name, if_pos hs, hasSub]
    cases t with
    | nil => exact absurd rfl hne
    | cons a as => rfl
  · rw [normalize_name, if_neg hs]
    exact hasSub_norm9_core_false _ t haz
      (hasSub_applyTokens_self remove_tokens9 _ t hmem hne
        (fun c hc => az_not_ws c (haz c hc)))

/-- A token containing a character outside the v9 output alphabet never
occurs in the v9 normalized output. -/
theorem token_free_charset9 (s t : Str) (c : Char) (hc : c ∈ t)
    (hg : goodChar c = false) : hasSub t (normalize_name s) = false := by
  cases h : hasSub t (normalize_name s) with
  | false => rfl
  | true =>
    exfalso
    have hmem := hasSub_mem _ _ h c hc
    by_cases hs : s = []
    · rw [normalize_name, if_pos hs] at hmem
      exact absurd hmem (List.not_mem_nil c)
    · rw [normalize_name, if_neg hs] at hmem
      have hgood := (normalized_shape_core _).1 c hmem
      rw [hg] at hgood
      exact Bool.false_ne_true hgood

/-- The multi-word token cannot occur in the v9 normalized output because its
sub-token "company" cannot. -/
theorem token_free_phrase9 (s : Str) :
    hasSub "public joint stock company".toList (normalize_name s) = false := by
  cases h : hasSub "public joint stock company".toList (normalize_name s) with
  | false => rfl
  | true =>
    exfalso
    have hcomp := hasSub_trans (normalize_name s)
      (show hasSub "company".toList "public joint stock company".toList = true
        by decide) h
    rw [token_free_letters9 s "company".toList (by decide) (by decide)
      (by decide)] at hcomp
    exact Bool.false_ne_true hcomp

/-- No v9 removal token occurs in the v9 normalized output. -/
theorem token_free_norm9 (s : Str) :
    ∀ t ∈ remove_tokens9, hasSub t (normalize_name s) = false := by
  intro t ht
  simp only [remove_tokens9, List.mem_cons, List.mem_singleton,
    List.not_mem_nil, or_false] at ht
  rcases ht with rfl | rfl | rfl | rfl | rfl | rfl | rfl | rfl | rfl | rfl | rfl
    | rfl | rfl | rfl
  · exact token_free_phrase9 s
  · exact token_free_letters9 s _ (by decide) (by decide) (by decide)
  · exact token_free_letters9 s _ (by decide) (by decide) (by decide)
  · exact token_free_letters9 s _ (by decide) (by decide) (by decide)
  · exact token_free_letters9 s _ (by decide) (by decide) (by decide)
  · exact token_free_letters9 s _ (by decide) (by decide) (by decide)
  · exact token_free_letters9 s _ (by decide) (by decide) (by decide)
  · exact token_free_letters9 s _ (by decide) (by decide) (by decide)
  · exact token_free_letters9 s _ (by decide) (by decide) (by decide)
  · exact token_free_charset9 s _ '.' (by decide) (by decide)
  · exact token_free_letters9 s _ (by decide) (by decide) (by decide)
  · exact token_free_letters9 s _ (by decide) (by decide) (by decide)
  · exact token_free_letters9 s _ (by decide) (by decide) (by decide)
  · exact token_free_charset9 s _ ',' (by decide) (by decide)

/-- Any string equal to a v9-pipeline output has no two adjacent whitespace
characters. -/
theorem chain_of_eq9 (Y l : Str) (h : l = pyStrip (collapseWS (stripPunct Y))) :
    List.Chain' (fun a b => ¬(isWS a = true ∧ isWS b = true)) l := by
  rw [h]
  exact pyStrip_chain (collapseWS_chain _)

/-- The v9 normalizer is idempotent. -/
theorem normalize_name_idem9 (s : Str) :
    normalize_name (normalize_name s) = normalize_name s := by
  by_cases hs : s = []
  · rw [hs]
    decide
  · by_cases hO : normalize_name s = []
    · rw [hO]
      decide
    · have hOdef : normalize_name s =
          pyStrip (collapseWS (stripPunct (applyTokens remove_tokens9 (lowerStr s)))) := by
        rw [normalize_name, if_neg hs]
      have hchar : ∀ c ∈ normalize_name s, goodChar c = true := by
        rw [hOdef]
        exact (normalized_shape_core (applyTokens remove_tokens9 (lowerStr s))).1
      have hchain : List.Chain' (fun a b => ¬(isWS a = true ∧ isWS b = true))
          (normalize_name s) := chain_of_eq9 _ _ hOdef
      have hlow : lowerStr (normalize_name s) = normalize_name s :=
        map_id_of _ _ (fun c hc => lowerChar_fix c (goodChar_not_upper c (hchar c hc)))
      have htok : applyTokens remove_tokens9 (normalize_name s) = normalize_name s :=
        applyTokens_id _ _ (token_free_norm9 s)
      have hstr : stripPunct (normalize_name s) = normalize_name s :=
        stripPunct_id _ (fun c hc => goodChar_keep c (hchar c hc))
      have hcol : collapseWS (normalize_name s) = normalize_name s :=
        collapseWS_id _ hchain (fun c hc hw => goodChar_ws_space c (hchar c hc) hw)
      have hpy : pyStrip (normalize_name s) = normalize_name s := by
        apply pyStrip_id
        · intro c hc
          rw [hOdef] at hc
          exact pyStrip_head _ c hc
        · intro c hc
          rw [hOdef] at hc
          exact pyStrip_last _ c hc
      conv_lhs => rw [normalize_name]
      rw [if_neg hO, hlow, htok, hstr, hcol, hpy]

/-- Chain for v8: a whitespace-free token absent from the token-pass output
does not occur in the final normalized string (no punctuation-strip stage). -/
theorem hasSub_norm8_core_false (Z t : Str)
    (hws : ∀ c ∈ t, isWS c = false)
    (hfree : hasSub t Z = false) :
    hasSub t (pyStrip (collapseWS Z)) = false := by
  cases h : hasSub t (pyStrip (collapseWS Z)) with
  | false => rfl
  | true =>
    exfalso
    have h1 := hasSub_pyStrip _ _ h
    have h2 := hasSub_collapseWS _ _ hws h1
    rw [hfree] at h2
    exact Bool.false_ne_true h2

/-- A whitespace-free token of the v8 removal list never occurs in the v8
normalized output. -/
theorem token_free_ws8 (s t : Str) (hmem : t ∈ remove_tokens8) (hne : t ≠ [])
    (hws : ∀ c ∈ t, isWS c = false) :
    hasSub t (normalize_name_v8 s) = false := by
  by_cases hs : s = []
  · rw [normalize_name_v8, if_pos hs, hasSub]
    cases t with
    | nil => exact absurd rfl hne
    | cons a as => rfl
  · rw [normalize_name_v8, if_neg hs]
    exact hasSub_norm8_core_false _ t hws
      (hasSub_applyTokens_self remove_tokens8 _ t hmem hne hws)

/-- The multi-word token cannot occur in the v8 normalized output because its
sub-token "company" cannot. -/
theorem token_free_phrase8 (s : Str) :
    hasSub "public joint stock company".toList (normalize_name_v8 s) = false := by
  cases h : hasSub "public joint stock company".toList (normalize_name_v8 s) with
  | false => rfl
  | true =>
    exfalso
    have hcomp := hasSub_trans (normalize_name_v8 s)
      (show hasSub "company".toList "public joint stock company".toList = true
        by decide) h
    rw [token_free_ws8 s "company".toList (by decide) (by decide)
      (by decide)] at hcomp
    exact Bool.false_ne_true hcomp

/-- No v8 removal token occurs in the v8 normalized output. -/
theorem token_free_norm8 (s : Str) :
    ∀ t ∈ remove_tokens8, hasSub t (normalize_name_v8 s) = false := by
  intro t ht
  simp only [remove_tokens8, List.mem_cons, List.mem_singleton,
    List.not_mem_nil, or_false] at ht
  rcases ht with rfl | rfl | rfl | rfl | rfl | rfl | rfl | rfl | rfl | rfl | rfl
    | rfl | rfl | rfl | rfl
  · exact token_free_phrase8 s
  · exact token_free_ws8 s _ (by decide) (by decide) (by decide)
  · exact token_free_ws8 s _ (by decide) (by decide) (by decide)
  · exact token_free_ws8 s _ (by decide) (by decide) (by decide)
  · exact token_free_ws8 s _ (by decide) (by decide) (by decide)
  · exact token_free_ws8 s _ (by decide) (by decide) (by decide)
  · exact token_free_ws8 s _ (by decide) (by decide) (by decide)
  · exact token_free_ws8 s _ (by decide) (by decide) (by decide)
  · exact token_free_ws8 s _ (by decide) (by decide) (by decide)
  · exact token_free_ws8 s _ (by decide) (by decide) (by decide)
  · exact token_free_ws8 s _ (by decide) (by decide) (by decide)
  · exact token_free_ws8 s _ (by decide) (by decide) (by decide)
  · exact token_free_ws8 s _ (by decide) (by decide) (by decide)
  · exact token_free_ws8 s _ (by decide) (by decide) (by decide)
  · exact token_free_ws8 s _ (by decide) (by decide) (by decide)

/-- Any string equal to a v8-pipeline output has no two adjacent whitespace
characters. -/
theorem chain_of_eq8 (Y l : Str) (h : l = pyStrip (collapseWS Y)) :
    List.Chain' (fun a b => ¬(isWS a = true ∧ isWS b = true)) l := by
  rw [h]
  exact pyStrip_chain (collapseWS_chain _)

/-- The v8 normalizer is idempotent as well: the replacement passes insert
only single spaces, so a second run finds nothing left to change. -/
theorem normalize_name_idem8 (s : Str) :
    normalize_name_v8 (normalize_name_v8 s) = normalize_name_v8 s := by
  by_cases hs : s = []
  · rw [hs]
    decide
  · by_cases hO : normalize_name_v8 s = []
    · rw [hO]
      decide
    · have hOdef : normalize_name_v8 s =
          pyStrip (collapseWS (applyTokens remove_tokens8 (lowerStr s))) := by
        rw [normalize_name_v8, if_neg hs]
      have hmem : ∀ c ∈ normalize_name_v8 s, c ∈ lowerStr s ∨ c = ' ' := by
        intro c hc
        rw [hOdef] at hc
        have h1 := pyStrip_subset _ _ hc
        rcases collapseWS_chars _ c h1 with ⟨hm, _⟩ | hsp
        · exact mem_applyTokens _ _ c hm
        · exact Or.inr hsp
      have hlow : lowerStr (normalize_name_v8 s) = normalize_name_v8 s := by
        apply map_id_of
        intro c hc
        rcases hmem c hc with hm | hsp
        · obtain ⟨x, _, hx⟩ := List.mem_map.mp hm
          rw [← hx]
          exact lowerChar_idem x
        · rw [hsp]
          exact lowerChar_fix ' ' (by decide)
      have htok : applyTokens remove_tokens8 (normalize_name_v8 s) = normalize_name_v8 s :=
        applyTokens_id _ _ (token_free_norm8 s)
      have hwssp : ∀ c ∈ normalize_name_v8 s, isWS c = true → c = ' ' := by
        intro c hc hw
        rw [hOdef] at hc
        have h1 := pyStrip_subset _ _ hc
        rcases collapseWS_chars _ c h1 with ⟨_, hnw⟩ | hsp
        · rw [hnw] at hw
          exact absurd hw (by decide)
        · exact hsp
      have hchain : List.Chain' (fun a b => ¬(isWS a = true ∧ isWS b = true))
          (normalize_name_v8 s) := chain_of_eq8 _ _ hOdef
      have hcol : collapseWS (normalize_name_v8 s) = normalize_name_v8 s :=
        collapseWS_id _ hchain hwssp
      have hpy : pyStrip (normalize_name_v8 s) = normalize_name_v8 s := by
        apply pyStrip_id
        · intro c hc
          rw [hOdef] at hc
          exact pyStrip_head _ c hc
        · intro c hc
          rw [hOdef] at hc
          exact pyStrip_last _ c hc
      conv_lhs => rw [normalize_name_v8]
      rw [if_neg hO, hlow, htok, hcol, hpy]

/-- C8 counterexample: the case-insensitivity half of the claim fails for the
v8 normalizer (`adverse_news8_app_v2.py`), which has no punctuation-strip
pass: `normalize_name("ACME, Ltd.")` keeps the final dot and yields
`"acme ."`, while `normalize_name("acme ltd")` yields `"acme"`. -/
theorem normalize_idem_counterexample :
    normalize_name_v8 "ACME, Ltd.".toList = "acme .".toList
    ∧ normalize_name_v8 "acme ltd".toList = "acme".toList
    ∧ normalize_name_v8 "ACME, Ltd.".toList ≠ normalize_name_v8 "acme ltd".toList :=
  ⟨by decide, by decide, by decide⟩

/-- C8 (amended): name normalization is idempotent for BOTH variants —
`normalize(normalize(x)) = normalize(x)` for every string `x` — and the
case-insensitivity example `normalize("ACME, Ltd.") = normalize("acme ltd")`
holds for the v9 normalizer (`adverse_news9_app_v2_1.py`); it fails for the
v8 variant, which lacks the punctuation strip (see the counterexample). -/
theorem normalize_idempotent_case_insensitive :
    (∀ s : Str, normalize_name (normalize_name s) = normalize_name s)
    ∧ (∀ s : Str, normalize_name_v8 (normalize_name_v8 s) = normalize_name_v8 s)
    ∧ normalize_name "ACME, Ltd.".toList = normalize_name "acme ltd".toList :=
  ⟨normalize_name_idem9, normalize_name_idem8, by decide⟩
